import Mathlib

/-!
# Verification of the agent-chat Agent Orchestration & Bridging Engine

Shallow embedding, in Lean 4, of the core data model and operations of the
`agent-chat` service (a TypeScript program bridging an XMPP operator to
Claude Code subprocesses), together with theorems settling the spec claims.

Each definition is translated from the corresponding TypeScript source
function; its doc comment names that function.  JavaScript strings are
modelled as `List Char` or `String`, `Map` objects as insertion-ordered
association lists with distinct keys, timestamps (`Date`, `Date.now()`)
as natural-number milliseconds, and asynchronous callbacks as explicit
events acting on an explicit state.
-/

set_option autoImplicit false

namespace AgentChat

/-! ## Output message splitting (`src/xmpp/agent-bot.ts`) -/

/-- `MAX_MESSAGE_SIZE` from `src/xmpp/agent-bot.ts` line 9: `64 * 1024`. -/
def MAX_MESSAGE_SIZE : Nat := 64 * 1024

/-- Model of JavaScript `str.lastIndexOf('\n', fromIdx)`: the largest index
`≤ fromIdx` at which the character occurs, or `-1` when there is none
(JavaScript searches backwards from `fromIdx`, inclusive). -/
def lastIndexOf (l : List Char) (c : Char) (fromIdx : Nat) : Int :=
  match (l.take (fromIdx + 1)).reverse.findIdx? (fun x => x == c) with
  | some j => ((l.take (fromIdx + 1)).length : Int) - 1 - (j : Int)
  | none => -1

/-- The `splitIndex` computation of one iteration of the
`while (remaining.length > 0)` loop in `AgentXMPPHandler.splitMessage`
(`src/xmpp/agent-bot.ts` lines 321-334): `splitIndex` starts at
`MAX_MESSAGE_SIZE`; when `remaining` is longer than the limit, the last
newline at index `≤ MAX_MESSAGE_SIZE` is preferred if it lies past half the
limit (the source compares `lastNewline > MAX_MESSAGE_SIZE * 0.5`, which is
exactly `2 * lastNewline > MAX_MESSAGE_SIZE`), and then the split is at
`lastNewline + 1`; otherwise `splitIndex` is the whole remainder. -/
def splitIndexOf (remaining : List Char) : Nat :=
  if remaining.length > MAX_MESSAGE_SIZE then
    let lastNewline := lastIndexOf remaining '\n' MAX_MESSAGE_SIZE
    if 2 * lastNewline > (MAX_MESSAGE_SIZE : Int) then (lastNewline + 1).toNat
    else MAX_MESSAGE_SIZE
  else remaining.length

theorem splitIndexOf_pos (remaining : List Char) (hrem : remaining ≠ []) :
    0 < splitIndexOf remaining := by
  have hlen : 0 < remaining.length := by
    have : remaining.length ≠ 0 := by simpa [List.length_eq_zero] using hrem
    omega
  unfold splitIndexOf
  split
  · dsimp only
    split
    · next h2 => omega
    · simp [MAX_MESSAGE_SIZE]
  · exact hlen

/-- The `while (remaining.length > 0)` loop of `AgentXMPPHandler.splitMessage`
(`src/xmpp/agent-bot.ts` lines 321-337): push `remaining.slice(0, splitIndex)`
and continue on `remaining.slice(splitIndex)`. -/
def splitMessageLoop (remaining : List Char) : List (List Char) :=
  if hrem : remaining = [] then []
  else
    remaining.take (splitIndexOf remaining) ::
      splitMessageLoop (remaining.drop (splitIndexOf remaining))
termination_by remaining.length
decreasing_by
  simp only [List.length_drop]
  have hlen : 0 < remaining.length := by
    have : remaining.length ≠ 0 := by simpa [List.length_eq_zero] using hrem
    omega
  exact Nat.sub_lt hlen (splitIndexOf_pos remaining hrem)

/-- `AgentXMPPHandler.splitMessage` (`src/xmpp/agent-bot.ts` lines 313-340):
content at most `MAX_MESSAGE_SIZE` long is returned whole; otherwise the
splitting loop runs. -/
def splitMessage (content : List Char) : List (List Char) :=
  if content.length ≤ MAX_MESSAGE_SIZE then [content]
  else splitMessageLoop content

theorem splitMessageLoop_join (remaining : List Char) :
    (splitMessageLoop remaining).flatten = remaining := by
  generalize hn : remaining.length = n
  induction n using Nat.strong_induction_on generalizing remaining with
  | _ n ih =>
    rw [splitMessageLoop]
    split
    · next h => simp [h]
    · next hrem =>
      have hlen : 0 < remaining.length := by
        have : remaining.length ≠ 0 := by simpa [List.length_eq_zero] using hrem
        omega
      have hlt : (remaining.drop (splitIndexOf remaining)).length < n := by
        simp only [List.length_drop]
        have := splitIndexOf_pos remaining hrem
        omega
      rw [List.flatten_cons, ih _ hlt _ rfl, List.take_append_drop]

/-- C7: splitting then rejoining the resulting chunks reproduces the
original text exactly, for every text output (in particular for those
longer than the stanza size limit). -/
theorem splitMessage_roundTrip (content : List Char) :
    (splitMessage content).flatten = content := by
  unfold splitMessage
  split
  · simp
  · exact splitMessageLoop_join content

/-- A text output with a newline at (0-based) index exactly
`MAX_MESSAGE_SIZE`, two characters past the limit in total length. -/
def newlineAtBoundaryInput : List Char :=
  List.replicate MAX_MESSAGE_SIZE 'a' ++ '\n' :: ['b']

theorem newlineAtBoundaryInput_length :
    newlineAtBoundaryInput.length = MAX_MESSAGE_SIZE + 2 := by
  rw [newlineAtBoundaryInput, List.length_append, List.length_replicate,
    List.length_cons, List.length_cons, List.length_nil]

theorem newlineAtBoundaryInput_take :
    newlineAtBoundaryInput.take (MAX_MESSAGE_SIZE + 1) =
      List.replicate MAX_MESSAGE_SIZE 'a' ++ ['\n'] := by
  rw [newlineAtBoundaryInput, List.take_append_eq_append_take]
  rw [List.take_of_length_le (by rw [List.length_replicate]; omega)]
  rw [List.length_replicate, Nat.add_sub_cancel_left]
  rfl

theorem lastIndexOf_newlineAtBoundary :
    lastIndexOf newlineAtBoundaryInput '\n' MAX_MESSAGE_SIZE =
      (MAX_MESSAGE_SIZE : Int) := by
  have hrev : (List.replicate MAX_MESSAGE_SIZE 'a' ++ ['\n']).reverse =
      '\n' :: List.replicate MAX_MESSAGE_SIZE 'a' := by
    rw [List.reverse_append, List.reverse_replicate]
    rfl
  have hlen : (List.replicate MAX_MESSAGE_SIZE 'a' ++ ['\n']).length =
      MAX_MESSAGE_SIZE + 1 := by
    rw [List.length_append, List.length_replicate, List.length_cons,
      List.length_nil]
  unfold lastIndexOf
  rw [newlineAtBoundaryInput_take, hrev, List.findIdx?_cons]
  rw [if_pos (show ('\n' == '\n') = true from rfl)]
  dsimp only
  rw [hlen]
  push_cast
  ring

theorem splitIndexOf_newlineAtBoundary :
    splitIndexOf newlineAtBoundaryInput = MAX_MESSAGE_SIZE + 1 := by
  unfold splitIndexOf
  rw [newlineAtBoundaryInput_length]
  rw [if_pos (show MAX_MESSAGE_SIZE + 2 > MAX_MESSAGE_SIZE by omega)]
  dsimp only
  rw [lastIndexOf_newlineAtBoundary]
  rw [if_pos (show 2 * (MAX_MESSAGE_SIZE : Int) > (MAX_MESSAGE_SIZE : Int) by
    norm_num [MAX_MESSAGE_SIZE])]
  omega

/-- C10: the splitter is claimed to keep every chunk within
`MAX_MESSAGE_SIZE`; this fails when a newline falls exactly at the size
boundary.  `remaining.lastIndexOf('\n', MAX_MESSAGE_SIZE)` searches indices
up to and including `MAX_MESSAGE_SIZE`, so a newline at index
`MAX_MESSAGE_SIZE` yields `splitIndex = MAX_MESSAGE_SIZE + 1` and a chunk
one character over the limit. -/
theorem splitMessage_oversized_chunk :
    ∃ chunk ∈ splitMessage newlineAtBoundaryInput,
      chunk.length = MAX_MESSAGE_SIZE + 1 := by
  have hlen := newlineAtBoundaryInput_length
  have hne : newlineAtBoundaryInput ≠ [] := by
    intro h
    rw [h, List.length_nil] at hlen
    omega
  refine ⟨newlineAtBoundaryInput.take (MAX_MESSAGE_SIZE + 1), ?_, ?_⟩
  · unfold splitMessage
    rw [if_neg (by omega)]
    rw [splitMessageLoop, dif_neg hne, splitIndexOf_newlineAtBoundary]
    exact List.mem_cons_self _ _
  · rw [newlineAtBoundaryInput_take, List.length_append,
      List.length_replicate, List.length_cons, List.length_nil]

/-! ## Agent registry (`src/agents/registry.ts`, `src/state/persistence.ts`) -/

/-- `AgentStatus` from `src/state/persistence.ts`. -/
inductive AgentStatus where
  | starting
  | running
  | stopping
  | stopped
  deriving Repr, DecidableEq

/-- `Agent` from `src/state/persistence.ts`. -/
structure Agent where
  id : String
  type : String
  jid : String
  workDir : String
  createdAt : String
  createdBy : String
  status : AgentStatus
  pid : Option Nat
  sessionId : Option String
  deriving Repr, DecidableEq

/-- The `Partial<Agent>` update objects actually passed to
`AgentRegistry.update` in the repository (`status`, `sessionId`, `pid`):
a field that is `none` is absent from the object and therefore left
unchanged by the object spread. -/
structure AgentUpdates where
  status : Option AgentStatus
  sessionId : Option String
  pid : Option Nat
  deriving Repr, DecidableEq

/-- The object spread `{ ...existing, ...updates, id: existing.id,
createdAt: existing.createdAt }` of `AgentRegistry.update`
(`src/agents/registry.ts` lines 95-101): present update fields override,
and `id`/`createdAt` are preserved. -/
def applyUpdates (existing : Agent) (u : AgentUpdates) : Agent :=
  { existing with
    status := u.status.getD existing.status
    sessionId := (u.sessionId.map some).getD existing.sessionId
    pid := (u.pid.map some).getD existing.pid }

/-- The in-memory agent map of `AgentRegistry` (`agents: Map<string, Agent>`,
keyed by `agent.id`, in insertion order) together with the ghost log of
`persistence.upsertAgent` calls. -/
structure RegistryState where
  agents : List Agent
  persistLog : List Agent
  deriving Repr, DecidableEq

/-- `Map.get` on the agent map: `AgentRegistry.get`
(`src/agents/registry.ts` lines 53-55). -/
def registryGet (s : RegistryState) (id : String) : Option Agent :=
  s.agents.find? (fun a => a.id == id)

/-- `Map.set` on a map keyed by `Agent.id`: replace in place when the key is
present, append otherwise. -/
def mapSetAgent (agents : List Agent) (a : Agent) : List Agent :=
  if agents.any (fun b => b.id == a.id) then
    agents.map (fun b => if b.id == a.id then a else b)
  else agents ++ [a]

/-- `AgentRegistry.update` (`src/agents/registry.ts` lines 89-105): throws
`Agent not found: <id>` when the id is unknown — before touching the map or
the persistence collaborator — and otherwise merges the updates, preserves
`id`/`createdAt`, stores the result and persists it.  The thrown error is
modelled by `Except.error`; the returned state is the state after the call
(unchanged on the error path, since the throw happens first). -/
def registryUpdate (s : RegistryState) (id : String) (u : AgentUpdates) :
    Except String Unit × RegistryState :=
  match s.agents.find? (fun a => a.id == id) with
  | none => (Except.error ("Agent not found: " ++ id), s)
  | some existing =>
      let updated := applyUpdates existing u
      (Except.ok (),
        { agents := mapSetAgent s.agents updated
          persistLog := s.persistLog ++ [updated] })

/-- C9: calling the registry's update operation with an id that is not
currently registered raises the `Agent not found` error synchronously, and
leaves both the in-memory agent map and the persisted state unchanged. -/
theorem registryUpdate_unknown_id (s : RegistryState) (id : String)
    (u : AgentUpdates) (h : registryGet s id = none) :
    registryUpdate s id u = (Except.error ("Agent not found: " ++ id), s) := by
  unfold registryUpdate
  unfold registryGet at h
  rw [h]

/-- Witness for C9 on a concrete input: an empty registry rejects an update
for id `swift-fox` and is left unchanged. -/
theorem registryUpdate_unknown_id_witness :
    registryGet ⟨[], []⟩ "swift-fox" = none ∧
      registryUpdate ⟨[], []⟩ "swift-fox" ⟨some .stopped, none, none⟩ =
        (Except.error "Agent not found: swift-fox", ⟨[], []⟩) := by
  refine ⟨rfl, ?_⟩
  have h :=
    registryUpdate_unknown_id ⟨[], []⟩ "swift-fox" ⟨some .stopped, none, none⟩ rfl
  simpa using h

/-! ## Crash recovery (`src/agents/recovery.ts`, `src/index.ts`) -/

/-- `RecoveryResult` from `src/agents/recovery.ts`. -/
structure RecoveryResult where
  success : Bool
  resumed : Bool
  error : Option String
  deriving Repr, DecidableEq

/-- `AgentRecovery.handleProcessExit` (`src/agents/recovery.ts` lines
419-477): classify an exit code into `(shouldRecover, reason)`.  `none`
models the JavaScript `null` exit code of a killed process. -/
def handleProcessExit (exitCode : Option Int) : Bool × String :=
  match exitCode with
  | none => (false, "Process was killed intentionally")
  | some c =>
      if c = 0 then (false, "Process exited normally")
      else if c ≥ 128 then
        (false, "Process terminated by signal (exit code " ++ toString c ++ ")")
      else if c = 127 then
        (false, "Command not found - check Claude Code installation")
      else (true, "Process crashed with exit code " ++ toString c)

/-- The registry and the ghost log of `adapter.spawn` calls made during
recovery, each recorded as `(agentId, resumeSessionId)` — the
`resumeSessionId` of the spawned config is the agent's stored `sessionId`
when present (`src/agents/recovery.ts` lines 365-372). -/
structure RecoveryWorld where
  registry : RegistryState
  spawnLog : List (String × Option String)
  deriving Repr, DecidableEq

/-- A registry update on the happy path of recovery, where the agent is
known to be registered; on the (unreachable) unknown-id path the state is
returned unchanged. -/
def regUpdate (w : RecoveryWorld) (id : String) (u : AgentUpdates) :
    RecoveryWorld :=
  { w with registry := (registryUpdate w.registry id u).2 }

/-- `AgentRecovery.recover` (`src/agents/recovery.ts` lines 357-409): set
status `starting`, spawn with `resumeSessionId := agent.sessionId` when
present (`canResume`), then on spawn success set status `running` and
report `resumed := canResume`; on spawn failure set status `stopped` and
report the error.  `spawnOk` models whether `adapter.spawn` throws. -/
def recover (w : RecoveryWorld) (agent : Agent) (spawnOk : Bool) :
    RecoveryWorld × RecoveryResult :=
  let canResume := agent.sessionId.isSome
  let w1 := regUpdate w agent.id ⟨some .starting, none, none⟩
  let w2 := { w1 with spawnLog := w1.spawnLog ++ [(agent.id, agent.sessionId)] }
  if spawnOk then
    (regUpdate w2 agent.id ⟨some .running, none, none⟩,
      ⟨true, canResume, none⟩)
  else
    (regUpdate w2 agent.id ⟨some .stopped, none, none⟩,
      ⟨false, false, some "spawn failed"⟩)

/-- `AgentRecovery.attemptAutoRecovery` (`src/agents/recovery.ts` lines
487-502): consult `handleProcessExit`; when it declines, set status
`stopped` and return `undefined` (modelled `none`); otherwise run
`recover`. -/
def attemptAutoRecovery (w : RecoveryWorld) (agent : Agent)
    (exitCode : Option Int) (spawnOk : Bool) :
    RecoveryWorld × Option RecoveryResult :=
  let decision := handleProcessExit exitCode
  if decision.1 then
    let (w', r) := recover w agent spawnOk
    (w', some r)
  else
    (regUpdate w agent.id ⟨some .stopped, none, none⟩, none)

/-- The `handler.onStopped` callback registered in `handleAgentCreated`
(`src/index.ts` lines 183-211): update the registry to `stopped`, and when
the stop reason is `process_exit`, re-read the agent and call
`recovery.attemptAutoRecovery(currentAgent, null)` — the source passes the
literal `null` as the exit code, not the subprocess's actual exit code.
`reasonIsProcessExit` models `stoppedEvent.reason === 'process_exit'`. -/
def onStoppedPipeline (w : RecoveryWorld) (agentId : String)
    (reasonIsProcessExit : Bool) (spawnOk : Bool) :
    RecoveryWorld × Option RecoveryResult :=
  let w1 := regUpdate w agentId ⟨some .stopped, none, none⟩
  if reasonIsProcessExit then
    match registryGet w1.registry agentId with
    | some currentAgent => attemptAutoRecovery w1 currentAgent none spawnOk
    | none => (w1, none)
  else (w1, none)

/-- The concrete agent of end-to-end scenario D: `running`, with a resume
token stored. -/
def scenarioDAgent : Agent :=
  { id := "swift-fox", type := "claude-code", jid := "swift-fox@localhost",
    workDir := "/work/proj-x", createdAt := "2026-01-01T00:00:00Z",
    createdBy := "user@localhost", status := .running, pid := some 42,
    sessionId := some "sess-1" }

/-- C1: the classifier does mark exit code `1` as recoverable, but the
composition root's `onStopped` callback invokes `attemptAutoRecovery` with
the hardcoded exit code `null` (`src/index.ts` line 202), which
`handleProcessExit` classifies as an intentional kill — so after a crash
with exit code `1` while a resume token is set, no respawn happens and the
agent ends `stopped`, never `starting` or `running`. -/
theorem onStopped_never_recovers :
    handleProcessExit (some 1) = (true, "Process crashed with exit code 1") ∧
    (onStoppedPipeline ⟨⟨[scenarioDAgent], []⟩, []⟩ "swift-fox" true true).2
        = none ∧
    (onStoppedPipeline ⟨⟨[scenarioDAgent], []⟩, []⟩ "swift-fox" true
        true).1.spawnLog = [] ∧
    (registryGet (onStoppedPipeline ⟨⟨[scenarioDAgent], []⟩, []⟩ "swift-fox"
        true true).1.registry "swift-fox").map Agent.status
      = some AgentStatus.stopped := by
  refine ⟨?_, ?_, ?_, ?_⟩ <;> rfl

/-! ## Manager conversation (`src/xmpp/manager-bot.ts`) -/

/-- Lowercasing of a JavaScript string (`str.toLowerCase()`), modelled
per-character. -/
def lowerStr (s : String) : String :=
  String.mk (s.toList.map Char.toLower)

/-- JavaScript `hay.includes(sub)` on strings: substring containment. -/
def containsSub (hay sub : List Char) : Bool :=
  hay.tails.any (fun t => sub.isPrefixOf t)

/-- JavaScript `parseInt(s)` (radix 10): skip leading whitespace, optional
sign, then parse leading decimal digits; `NaN` (modelled `none`) when no
digit follows. -/
def parseIntJS (s : String) : Option Int :=
  let cs := s.toList.dropWhile (fun c => c.isWhitespace)
  let signed : Int × List Char :=
    match cs with
    | '-' :: r => (-1, r)
    | '+' :: r => (1, r)
    | r => (1, r)
  let digits := signed.2.takeWhile Char.isDigit
  if digits.isEmpty then none
  else
    some (signed.1 *
      (digits.foldl (fun acc c => acc * 10 + (c.toNat - '0'.toNat)) 0 : Nat))

/-- `ConversationState.step` from `src/xmpp/manager-bot.ts` lines 23-27. -/
inductive ConvStep where
  | idle
  | awaitingType
  | awaitingRepo
  | awaitingTask
  deriving Repr, DecidableEq

/-- `ConversationState` from `src/xmpp/manager-bot.ts` lines 23-27. -/
structure ConvState where
  step : ConvStep
  agentType : Option String
  repo : Option String
  deriving Repr, DecidableEq

/-- The messages the manager bot can send during the creation flow,
abstracting their exact wording. -/
inductive ManagerMsg where
  | noRepos
  | repoPrompt (repos : List String)
  | invalidType
  | cancelled
  | taskPrompt
  | invalidRepo
  | created (repo : Option String)
  | failed
  deriving Repr, DecidableEq

/-- The agent-creation request emitted on completion of the dialogue
(`AgentCreatedEvent` plus the registry registration), abstracted to the
data accumulated by the conversation. -/
structure CreateRequest where
  repo : Option String
  prompt : String
  deriving Repr, DecidableEq

/-- `ManagerBot.handleTypeSelection` (`src/xmpp/manager-bot.ts` lines
238-270): accepts `'1'` or any input whose lowercase contains `claude`;
then lists repos (empty list aborts to idle); *any other input* — including
`cancel` — re-prompts with an invalid-selection message that itself says
"type 'cancel' to abort", leaving the state unchanged.  There is no cancel
branch in this state. -/
def handleTypeSelection (st : ConvState) (input : String)
    (repos : List String) : ConvState × List ManagerMsg :=
  if input == "1" || containsSub (lowerStr input).toList ("claude".toList) then
    if repos.isEmpty then
      ({ st with agentType := some "claude-code", step := .idle }, [.noRepos])
    else
      ({ st with agentType := some "claude-code", step := .awaitingRepo },
        [.repoPrompt repos])
  else (st, [.invalidType])

/-- `ManagerBot.handleRepoSelection` (`src/xmpp/manager-bot.ts` lines
275-310): `cancel` returns to idle; a 1-based in-range index selects by
position, otherwise an exact case-insensitive name match; invalid input
re-prompts without state change. -/
def handleRepoSelection (st : ConvState) (input : String)
    (repos : List String) : ConvState × List ManagerMsg :=
  if lowerStr input == "cancel" then
    ({ st with step := .idle }, [.cancelled])
  else
    let byIndex : Option String :=
      match parseIntJS input with
      | some n =>
          if 1 ≤ n ∧ n ≤ (repos.length : Int) then repos.get? (n - 1).toNat
          else none
      | none => none
    let selected : Option String :=
      match byIndex with
      | some r => some r
      | none => repos.find? (fun r => lowerStr r == lowerStr input)
    match selected with
    | some r => ({ st with repo := some r, step := .awaitingTask }, [.taskPrompt])
    | none => (st, [.invalidRepo])

/-- `ManagerBot.handleTaskInput` (`src/xmpp/manager-bot.ts` lines 315-381):
`cancel` returns to idle with no agent created; otherwise the agent is
created (id allocation, XMPP user provisioning, registry registration —
collapsed into the emitted `CreateRequest`, with `createOk` modelling
whether any of those steps throws) and the state is fully reset to idle. -/
def handleTaskInput (st : ConvState) (input : String) (createOk : Bool) :
    ConvState × List ManagerMsg × Option CreateRequest :=
  if lowerStr input == "cancel" then
    ({ st with step := .idle }, [.cancelled], none)
  else if createOk then
    (⟨.idle, none, none⟩, [.created st.repo], some ⟨st.repo, input⟩)
  else
    (⟨.idle, none, none⟩, [.failed], none)

/-- C8: `cancel` does return the conversation to idle, with no agent
created, from `awaiting_repo` and `awaiting_task` — but *not* from
`awaiting_type`: there the input falls through to the invalid-selection
branch (whose own reply text offers "type 'cancel' to abort") and the
state remains `awaiting_type`. -/
theorem cancel_not_honored_in_awaiting_type :
    handleTypeSelection ⟨.awaitingType, none, none⟩ "cancel" ["proj-x"]
        = (⟨.awaitingType, none, none⟩, [.invalidType]) ∧
    handleRepoSelection ⟨.awaitingRepo, some "claude-code", none⟩ "cancel"
        ["proj-x"]
        = (⟨.idle, some "claude-code", none⟩, [.cancelled]) ∧
    handleTaskInput ⟨.awaitingTask, some "claude-code", some "proj-x"⟩
        "cancel" true
        = (⟨.idle, some "claude-code", some "proj-x"⟩, [.cancelled], none) := by
  refine ⟨?_, ?_, ?_⟩ <;> rfl

/-! ## Subprocess turn serialization (`src/agents/claude-code.ts`) -/

/-- The turn-serialization state of `ClaudeCodeProcess`
(`src/agents/claude-code.ts`): the `messageQueue` and `isReady` fields,
plus the ghost list `written` of user-turn lines actually written to the
subprocess's stdin by `writeMessage`, in write order. -/
structure ProcState where
  messageQueue : List String
  isReady : Bool
  written : List String
  deriving Repr, DecidableEq

/-- The initial state of a freshly spawned `ClaudeCodeProcess`:
`messageQueue = []`, `isReady = true`, nothing written yet. -/
def procInit : ProcState :=
  ⟨[], true, []⟩

/-- `ClaudeCodeProcess.writeMessage` (`src/agents/claude-code.ts` lines
682-693): write the turn to stdin and set `isReady = false`. -/
def writeMessage (s : ProcState) (text : String) : ProcState :=
  { s with written := s.written ++ [text], isReady := false }

/-- `ClaudeCodeProcess.processQueue` (`src/agents/claude-code.ts` lines
698-705): `const next = this.messageQueue.shift(); if (next) {
this.writeMessage(next); } else { this.isReady = true; }`.  The `if (next)`
is a JavaScript truthiness test: both `undefined` (shift on an empty
queue) and the empty string are falsy, so a queued empty-string message is
shifted off and silently discarded, and the adapter is marked ready even
while further messages remain queued. -/
def processQueue (s : ProcState) : ProcState :=
  match s.messageQueue with
  | [] => { s with isReady := true }
  | next :: rest =>
      if next = "" then { s with messageQueue := rest, isReady := true }
      else writeMessage { s with messageQueue := rest } next

/-- The events that drive the turn-serialization state of a live
subprocess: a `send(message)` call (`src/agents/claude-code.ts` lines
665-677), the decoding of a `result` event by the output iterator (lines
781-794, which calls `processQueue`), and the decoding of any other line
(`init`, `assistant`, malformed — none of which touch the queue). -/
inductive ProcEvent where
  | send (message : String)
  | result
  | other
  deriving Repr, DecidableEq

/-- One step of the turn-serialization state machine: `send` queues the
message when a turn is in flight (`!isReady`) and writes it immediately
otherwise; a decoded `result` event runs `processQueue`. -/
def procStep (s : ProcState) : ProcEvent → ProcState
  | .send m => if s.isReady then writeMessage s m else
      { s with messageQueue := s.messageQueue ++ [m] }
  | .result => processQueue s
  | .other => s

/-- Run the state machine over a trace of events. -/
def procRun (s : ProcState) : List ProcEvent → ProcState
  | [] => s
  | e :: es => procRun (procStep s e) es

/-- The payloads of the `send` calls of a trace, in arrival order. -/
def sendsOf : List ProcEvent → List String
  | [] => []
  | .send m :: es => m :: sendsOf es
  | _ :: es => sendsOf es

/-- The number of decoded `result` events of a trace. -/
def resultsOf : List ProcEvent → Nat
  | [] => 0
  | .result :: es => resultsOf es + 1
  | _ :: es => resultsOf es

/-- The inductive invariant of the turn-serialization machine on traces
whose `send` payloads are all nonempty (so `processQueue`'s truthiness
check never discards a queued message). -/
def ProcInv (s : ProcState) (tr : List ProcEvent) : Prop :=
  s.written ++ s.messageQueue = sendsOf tr ∧
  s.written.length ≤ resultsOf tr + 1 ∧
  (s.isReady = true → s.messageQueue = [] ∧ s.written.length ≤ resultsOf tr) ∧
  "" ∉ s.messageQueue

theorem procInv_init : ProcInv procInit [] := by
  refine ⟨rfl, by simp [procInit, resultsOf], ?_, by simp [procInit]⟩
  intro _
  exact ⟨rfl, by simp [procInit, resultsOf]⟩

theorem sendsOf_append (tr : List ProcEvent) (e : ProcEvent) :
    sendsOf (tr ++ [e]) = sendsOf tr ++ sendsOf [e] := by
  induction tr with
  | nil => cases e <;> rfl
  | cons hd tl ih =>
      cases hd <;> simp [sendsOf, ih]

theorem resultsOf_append (tr : List ProcEvent) (e : ProcEvent) :
    resultsOf (tr ++ [e]) = resultsOf tr + resultsOf [e] := by
  induction tr with
  | nil => cases e <;> rfl
  | cons hd tl ih =>
      cases hd <;> simp [resultsOf, ih] <;> omega

theorem procRun_append (s : ProcState) (tr : List ProcEvent) (e : ProcEvent) :
    procRun s (tr ++ [e]) = procStep (procRun s tr) e := by
  induction tr generalizing s with
  | nil => rfl
  | cons hd tl ih => simp [procRun, ih]

theorem procInv_step (s : ProcState) (tr : List ProcEvent) (e : ProcEvent)
    (h : ProcInv s tr)
    (he : ∀ m : String, e = ProcEvent.send m → m ≠ "") :
    ProcInv (procStep s e) (tr ++ [e]) := by
  obtain ⟨horder, hbound, hready, hnotin⟩ := h
  cases e with
  | send m =>
      have hm : m ≠ "" := he m rfl
      by_cases hr : s.isReady = true
      · obtain ⟨hq, hb⟩ := hready hr
        refine ⟨?_, ?_, ?_, ?_⟩
        · simp [procStep, hr, writeMessage, sendsOf_append, sendsOf]
          rw [← horder, hq]
          simp
        · simp [procStep, hr, writeMessage, resultsOf_append, resultsOf]
          omega
        · intro habs
          simp [procStep, hr, writeMessage] at habs
        · simp [procStep, hr, writeMessage, hq]
      · have hr' : s.isReady = false := by
          cases hh : s.isReady
          · rfl
          · exact absurd hh hr
        refine ⟨?_, ?_, ?_, ?_⟩
        · simp [procStep, hr', sendsOf_append, sendsOf]
          rw [← horder, List.append_assoc]
        · simpa [procStep, hr', resultsOf_append, resultsOf] using hbound
        · intro habs
          simp [procStep, hr'] at habs
        · simp only [procStep, hr', if_false, Bool.false_eq_true]
          intro habs
          rcases List.mem_append.mp habs with h1 | h1
          · exact hnotin h1
          · exact hm (List.mem_singleton.mp h1).symm
  | result =>
      cases hq : s.messageQueue with
      | nil =>
          refine ⟨?_, ?_, ?_, ?_⟩
          · simp [procStep, processQueue, hq, sendsOf_append, sendsOf]
            simpa [hq] using horder
          · simp [procStep, processQueue, hq, resultsOf_append, resultsOf]
            omega
          · intro _
            refine ⟨by simp [procStep, processQueue, hq], ?_⟩
            simp only [procStep, processQueue, hq, resultsOf_append, resultsOf]
            omega
          · simp [procStep, processQueue, hq]
      | cons next rest =>
          have hnext : next ≠ "" := by
            intro habs
            rw [habs] at hq
            rw [hq] at hnotin
            exact hnotin (List.mem_cons_self _ _)
          have hrest : "" ∉ rest := by
            intro habs
            rw [hq] at hnotin
            exact hnotin (List.mem_cons_of_mem _ habs)
          refine ⟨?_, ?_, ?_, ?_⟩
          · simp [procStep, processQueue, hq, hnext, writeMessage,
              sendsOf_append, sendsOf]
            rw [← horder, hq]
          · simp [procStep, processQueue, hq, hnext, writeMessage,
              resultsOf_append, resultsOf]
            omega
          · intro habs
            simp [procStep, processQueue, hq, hnext, writeMessage] at habs
          · simpa [procStep, processQueue, hq, hnext, writeMessage] using hrest
  | other =>
      refine ⟨?_, ?_, ?_, ?_⟩
      · simpa [procStep, sendsOf_append, sendsOf] using horder
      · simpa [procStep, resultsOf_append, resultsOf] using hbound
      · simpa [procStep, resultsOf_append, resultsOf] using hready
      · simpa [procStep] using hnotin

theorem procInv_run (tr : List ProcEvent) (h : "" ∉ sendsOf tr) :
    ProcInv (procRun procInit tr) tr := by
  induction tr using List.reverseRecOn with
  | nil => exact procInv_init
  | append_singleton tr e ih =>
      rw [sendsOf_append] at h
      rw [procRun_append]
      refine procInv_step _ _ _ (ih ?_) ?_
      · intro habs
        exact h (List.mem_append_left _ habs)
      · intro m hem habs
        subst hem
        subst habs
        exact h (List.mem_append_right _ (by simp [sendsOf]))

/-- The turn-count bound, which holds over every trace, empty sends
included: a dropped empty message only releases readiness, which still
admits at most one write before the next `result`. -/
def ProcBoundInv (s : ProcState) (tr : List ProcEvent) : Prop :=
  s.written.length ≤ resultsOf tr + 1 ∧
  (s.isReady = true → s.written.length ≤ resultsOf tr)

theorem procBoundInv_init : ProcBoundInv procInit [] :=
  ⟨by simp [procInit, resultsOf], fun _ => by simp [procInit, resultsOf]⟩

theorem procBoundInv_step (s : ProcState) (tr : List ProcEvent)
    (e : ProcEvent) (h : ProcBoundInv s tr) :
    ProcBoundInv (procStep s e) (tr ++ [e]) := by
  obtain ⟨hbound, hready⟩ := h
  cases e with
  | send m =>
      by_cases hr : s.isReady = true
      · have hb := hready hr
        refine ⟨?_, ?_⟩
        · simp [procStep, hr, writeMessage, resultsOf_append, resultsOf]
          omega
        · intro habs
          simp [procStep, hr, writeMessage] at habs
      · have hr' : s.isReady = false := by
          cases hh : s.isReady
          · rfl
          · exact absurd hh hr
        refine ⟨?_, ?_⟩
        · simpa [procStep, hr', resultsOf_append, resultsOf] using hbound
        · intro habs
          simp [procStep, hr'] at habs
  | result =>
      cases hq : s.messageQueue with
      | nil =>
          refine ⟨?_, ?_⟩
          · simp [procStep, processQueue, hq, resultsOf_append, resultsOf]
            omega
          · intro _
            simp only [procStep, processQueue, hq, resultsOf_append, resultsOf]
            omega
      | cons next rest =>
          by_cases hne : next = ""
          · refine ⟨?_, ?_⟩
            · simp [procStep, processQueue, hq, hne, resultsOf_append,
                resultsOf]
              omega
            · intro _
              simp only [procStep, processQueue, hq, hne, if_pos,
                resultsOf_append, resultsOf]
              omega
          · refine ⟨?_, ?_⟩
            · simp [procStep, processQueue, hq, hne, writeMessage,
                resultsOf_append, resultsOf]
              omega
            · intro habs
              simp [procStep, processQueue, hq, hne, writeMessage] at habs
  | other =>
      refine ⟨?_, ?_⟩
      · simpa [procStep, resultsOf_append, resultsOf] using hbound
      · simpa [procStep, resultsOf_append, resultsOf] using hready

theorem procBoundInv_run (tr : List ProcEvent) :
    ProcBoundInv (procRun procInit tr) tr := by
  induction tr using List.reverseRecOn with
  | nil => exact procBoundInv_init
  | append_singleton tr e ih =>
      rw [procRun_append]
      exact procBoundInv_step _ _ _ ih

/-- C2 counterexample: the unqualified claim — every queued `send` payload
is written, one per subsequent `result`, in arrival order — is false.  On
the trace `send "x"`, `send ""`, `send "a"`, `result`, `send "b"`,
`result`, `result`, the first `result` shifts the queued empty string and
`if (next)` discards it while marking the adapter ready, so `"b"` is then
written immediately, ahead of the still-queued `"a"`: the writes are
`["x", "b", "a"]`, losing `""` and reordering `"a"`/`"b"` relative to the
arrival order `["x", "", "a", "b"]`. -/
theorem turn_serialization_counterexample :
    sendsOf [ProcEvent.send "x", .send "", .send "a", .result, .send "b",
        .result, .result] = ["x", "", "a", "b"] ∧
    (procRun procInit [ProcEvent.send "x", .send "", .send "a", .result,
        .send "b", .result, .result]).written = ["x", "b", "a"] ∧
    (procRun procInit [ProcEvent.send "x", .send "", .send "a", .result,
        .send "b", .result, .result]).messageQueue = [] ∧
    ¬ ((procRun procInit [ProcEvent.send "x", .send "", .send "a", .result,
          .send "b", .result, .result]).written
        ++ (procRun procInit [ProcEvent.send "x", .send "", .send "a",
              .result, .send "b", .result, .result]).messageQueue
        = sendsOf [ProcEvent.send "x", .send "", .send "a", .result,
            .send "b", .result, .result]) := by
  refine ⟨rfl, rfl, rfl, by decide⟩

/-- C2 (amended): (i) a new user turn is written to the subprocess's input
only after the previous turn's `result` event — over every trace, empty
sends included, the number of stdin writes is at most one more than the
number of decoded `result` events, and each single event writes at most
one turn; and (ii) provided no `send()` call carries an empty string, the
queued turns are written one per subsequent `result` event, in arrival
order, none lost: the written turns followed by the still-queued ones are
exactly the send payloads, and a `result` with a nonempty queue writes
exactly the queue head.  Without that proviso the property fails, because
`processQueue`'s `if (next)` truthiness check silently discards a shifted
empty-string message and marks the adapter ready while later messages may
still be queued. -/
theorem turn_serialization_no_empty_sends (tr : List ProcEvent) :
    ((procRun procInit tr).written.length ≤ resultsOf tr + 1) ∧
    (∀ s : ProcState, ∀ e : ProcEvent,
      (procStep s e).written.length ≤ s.written.length + 1) ∧
    ("" ∉ sendsOf tr →
      (procRun procInit tr).written ++ (procRun procInit tr).messageQueue
        = sendsOf tr) ∧
    (∀ s : ProcState, ∀ next : String, ∀ rest : List String,
      s.messageQueue = next :: rest → next ≠ "" →
      (procStep s .result).written = s.written ++ [next]) := by
  refine ⟨(procBoundInv_run tr).1, ?_, ?_, ?_⟩
  · intro s e
    cases e with
    | send m =>
        by_cases hr : s.isReady = true <;>
          simp [procStep, hr, writeMessage]
    | result =>
        cases hq : s.messageQueue with
        | nil => simp [procStep, processQueue, hq]
        | cons next rest =>
            by_cases hne : next = "" <;>
              simp [procStep, processQueue, hq, hne, writeMessage]
    | other => simp [procStep]
  · intro hne
    exact (procInv_run tr hne).1
  · intro s next rest hq hne
    simp [procStep, processQueue, hq, hne, writeMessage]

/-- Witness for C2's amended theorem: on the empty-string-free trace
`send "x"`, `send "y"`, `result`, the writes followed by the queue are
exactly the arrival-ordered payloads. -/
theorem turn_serialization_no_empty_sends_witness :
    ("" ∉ sendsOf [ProcEvent.send "x", .send "y", .result]) ∧
      (procRun procInit [ProcEvent.send "x", .send "y", .result]).written
          ++ (procRun procInit
                [ProcEvent.send "x", .send "y", .result]).messageQueue
        = sendsOf [ProcEvent.send "x", .send "y", .result] :=
  ⟨by decide,
    (turn_serialization_no_empty_sends
        [ProcEvent.send "x", .send "y", .result]).2.2.1 (by decide)⟩

/-! ## Permission correlation engine (`src/mcp/tools/permission-prompt.ts`) -/

/-- `PendingPermission` from `src/mcp/tools/permission-prompt.ts` lines
26-35.  `createdAt` is the `Date` timestamp in milliseconds.  `serial` is a
ghost tag standing for the request instance (its promise and `resolve`
closure): serials are allocated from a monotone counter, so they identify a
request even if a 4-hex id string is ever reused. -/
structure PendingPermission where
  id : String
  agentId : String
  action : String
  createdAt : Nat
  serial : Nat
  deriving Repr, DecidableEq

/-- A `resolve(...)` call of some request's promise, recorded in a ghost
log: which request instance (serial), `approved`, and `reason`. -/
structure Resolution where
  serial : Nat
  approved : Bool
  reason : Option String
  deriving Repr, DecidableEq

/-- The state of a `PermissionPromptTool` instance: the `pending`
`Map<string, PendingPermission>` in insertion order, the armed `setTimeout`
timers as `(request serial, captured requestId, expiry)` triples, the ghost
log of `resolve` calls, the current time `Date.now()`, and the next ghost
serial. -/
structure PermState where
  pending : List PendingPermission
  timers : List (Nat × String × Nat)
  resolutions : List Resolution
  now : Nat
  nextSerial : Nat
  deriving Repr, DecidableEq

/-- `Map.get` on the pending map. -/
def pendingGet (ps : List PendingPermission) (rid : String) :
    Option PendingPermission :=
  ps.find? (fun p => p.id == rid)

/-- `Map.set` on the pending map: replace in place when the key is present
(as the exhaustion fallback of the id generator permits), append
otherwise. -/
def pendingSet (ps : List PendingPermission) (p : PendingPermission) :
    List PendingPermission :=
  if ps.any (fun q => q.id == p.id) then
    ps.map (fun q => if q.id == p.id then p else q)
  else ps ++ [p]

/-- `Map.delete` on the pending map (keys are unique in a `Map`). -/
def pendingDelete (ps : List PendingPermission) (rid : String) :
    List PendingPermission :=
  ps.filter (fun p => p.id != rid)

/-- `PermissionPromptTool.requestPermission` (`src/mcp/tools/permission-prompt.ts`
lines 167-228): an unknown agent resolves immediately with `Agent not
found`; a failed prompt delivery resolves with `Failed to send permission
request`; otherwise a timeout is armed for `now + timeoutMs` and the
pending entry is stored with `createdAt = now`.  The request id is produced
by `generateRequestId` (modelled separately); `sendOk` models whether
`sendMessage` throws. -/
def requestPermission (timeoutMs : Nat) (registryIds : List String)
    (s : PermState) (agentId action requestId : String) (sendOk : Bool) :
    PermState :=
  if !(registryIds.contains agentId) then
    { s with
      resolutions :=
        s.resolutions ++ [⟨s.nextSerial, false, some "Agent not found"⟩]
      nextSerial := s.nextSerial + 1 }
  else if !sendOk then
    { s with
      resolutions := s.resolutions ++
        [⟨s.nextSerial, false, some "Failed to send permission request"⟩]
      nextSerial := s.nextSerial + 1 }
  else
    { s with
      pending :=
        pendingSet s.pending ⟨requestId, agentId, action, s.now, s.nextSerial⟩
      timers := s.timers ++ [(s.nextSerial, requestId, s.now + timeoutMs)]
      nextSerial := s.nextSerial + 1 }

/-- JavaScript `message.trim()`: strip whitespace from both ends. -/
def trimChars (cs : List Char) : List Char :=
  ((cs.dropWhile Char.isWhitespace).reverse.dropWhile Char.isWhitespace).reverse

/-- The `message.trim().toLowerCase()` normalization at the top of
`PermissionPromptTool.handleUserResponse` (line 235). -/
def normalizeReply (message : String) : String :=
  lowerStr (String.mk (trimChars message.toList))

/-- The affirmative tokens of the reply regex (line 239/249). -/
def affirmatives : List String := ["yes", "y", "ok", "approve", "allow"]

/-- The negative tokens of the reply regex (line 239). -/
def negatives : List String := ["no", "n", "deny", "reject"]

/-- All response tokens of the reply regex. -/
def respTokens : List String := affirmatives ++ negatives

/-- The character class `[a-f0-9]` of the reply regex. -/
def isHexLower (c : Char) : Bool :=
  c.isDigit || ('a' ≤ c && c ≤ 'f')

/-- The reply regex
`^(?:([a-f0-9]{4})\s+)?(yes|y|ok|approve|allow|no|n|deny|reject)$` of
`handleUserResponse` (line 239), applied to the trimmed lowercased message:
either the whole string is a response token, or it is exactly four hex
characters, then one or more whitespace characters, then a response token.
Returns the optional request id and the `approved` flag (line 249). -/
def parseReply (trimmed : String) : Option (Option String × Bool) :=
  if respTokens.contains trimmed then
    some (none, affirmatives.contains trimmed)
  else
    let cs := trimmed.toList
    let idPart := cs.take 4
    let rest := cs.drop 4
    let ws := rest.takeWhile (fun c => c.isWhitespace)
    let tok := String.mk (rest.dropWhile (fun c => c.isWhitespace))
    if idPart.length == 4 && idPart.all isHexLower && !ws.isEmpty &&
        respTokens.contains tok then
      some (some (String.mk idPart), affirmatives.contains tok)
    else none

/-- `PermissionPromptTool.getPending` (lines 293-295): the pending entries
of one agent, in insertion order. -/
def getPendingFor (s : PermState) (agentId : String) :
    List PendingPermission :=
  s.pending.filter (fun p => p.agentId == agentId)

/-- `agentPending.sort((a, b) => a.createdAt.getTime() -
b.createdAt.getTime())[0]` of `PermissionPromptTool.findOldestPending`
(lines 342-351): `Array.prototype.sort` is stable, so the result is the
first element, in insertion order, among those with minimal `createdAt`. -/
def firstMinByCreatedAt : List PendingPermission → Option PendingPermission
  | [] => none
  | p :: rest =>
      match firstMinByCreatedAt rest with
      | none => some p
      | some q => if q.createdAt < p.createdAt then some q else some p

/-- `PermissionPromptTool.findOldestPending` (lines 342-351). -/
def findOldestPending (s : PermState) (agentId : String) :
    Option PendingPermission :=
  firstMinByCreatedAt (getPendingFor s agentId)

/-- Lines 273-287 of `handleUserResponse`: `clearTimeout(pending.timeoutHandle)`,
`this.pending.delete(pending.id)`, `pending.resolve({ approved })`. -/
def resolveAndRemove (s : PermState) (p : PendingPermission)
    (approved : Bool) : PermState :=
  { s with
    timers := s.timers.filter (fun t => t.1 != p.serial)
    pending := pendingDelete s.pending p.id
    resolutions := s.resolutions ++ [⟨p.serial, approved, none⟩] }

/-- `PermissionPromptTool.handleUserResponse` (lines 234-288): parse the
reply; a non-reply returns `false` with no state change; a reply with an
id that is unknown or belongs to another agent, or a no-id reply with
nothing pending for the agent, returns `true` with no state change;
otherwise the matched (or oldest) pending request is resolved with the
parsed `approved` flag and removed. -/
def handleUserResponse (s : PermState) (agentId message : String) :
    Bool × PermState :=
  match parseReply (normalizeReply message) with
  | none => (false, s)
  | some (some rid, approved) =>
      match pendingGet s.pending rid with
      | none => (true, s)
      | some p =>
          if p.agentId != agentId then (true, s)
          else (true, resolveAndRemove s p approved)
  | some (none, approved) =>
      match findOldestPending s agentId with
      | none => (true, s)
      | some p => (true, resolveAndRemove s p approved)

/-- One iteration of the loop of `PermissionPromptTool.cancelAll` (lines
300-316): clear the timer, delete the entry, resolve with reason
`cancelled`. -/
def cancelOne (s : PermState) (p : PendingPermission) : PermState :=
  { s with
    timers := s.timers.filter (fun t => t.1 != p.serial)
    pending := pendingDelete s.pending p.id
    resolutions := s.resolutions ++ [⟨p.serial, false, some "cancelled"⟩] }

/-- `PermissionPromptTool.cancelAll` (lines 300-316): cancel every pending
entry of the agent (the list is computed before the loop runs). -/
def cancelAll (s : PermState) (agentId : String) : PermState :=
  (getPendingFor s agentId).foldl cancelOne s

/-- The `setTimeout` callback armed by `requestPermission` (lines 204-212)
for the request with ghost serial `ser`, as run by the JavaScript runtime:
it runs only while its timer is armed and exactly when the clock reaches
the timer's expiry (`setTimeout` semantics; `clearTimeout` on the
resolution paths disarms it).  The callback body deletes the captured
`requestId` from the pending map and resolves its own promise with reason
`timeout`. -/
def fireTimeout (s : PermState) (ser : Nat) : PermState :=
  match s.timers.find? (fun t => t.1 == ser) with
  | some (_, rid, expiry) =>
      if s.now == expiry then
        { s with
          timers := s.timers.filter (fun t => t.1 != ser)
          pending := pendingDelete s.pending rid
          resolutions := s.resolutions ++ [⟨ser, false, some "timeout"⟩] }
      else s
  | none => s

/-- The events that drive a `PermissionPromptTool` instance. -/
inductive PermEvent where
  | request (registryIds : List String)
      (agentId action requestId : String) (sendOk : Bool)
  | reply (agentId message : String)
  | cancel (agentId : String)
  | fire (serial : Nat)
  | advance (dt : Nat)
  deriving Repr, DecidableEq

/-- One step of the permission engine under one event. -/
def permStep (timeoutMs : Nat) (s : PermState) : PermEvent → PermState
  | .request reg a act rid ok => requestPermission timeoutMs reg s a act rid ok
  | .reply a m => (handleUserResponse s a m).2
  | .cancel a => cancelAll s a
  | .fire ser => fireTimeout s ser
  | .advance dt => { s with now := s.now + dt }

/-- Run the permission engine over a trace of events. -/
def permRun (timeoutMs : Nat) (s : PermState) : List PermEvent → PermState
  | [] => s
  | e :: es => permRun timeoutMs (permStep timeoutMs s e) es

/-- How many times the request instance `ser` has been resolved. -/
def resCount (s : PermState) (ser : Nat) : Nat :=
  (s.resolutions.filter (fun r => r.serial == ser)).length

/-! ## Request id generation (`src/mcp/tools/permission-prompt.ts` lines 321-337) -/

/-- JavaScript `n.toString(16)` for a natural number: lowercase hex digits,
no padding (`Nat.toDigits 16` produces exactly these). -/
def natToHexChars (n : Nat) : List Char :=
  Nat.toDigits 16 n

/-- JavaScript `.padStart(4, '0')`. -/
def padStart4 (cs : List Char) : List Char :=
  List.replicate (4 - cs.length) '0' ++ cs

/-- One candidate of `generateRequestId`:
`Math.floor(Math.random() * 0x10000).toString(16).padStart(4, '0')`. -/
def hex4 (n : Nat) : String :=
  String.mk (padStart4 (natToHexChars n))

/-- JavaScript `.slice(-4)`: the last four characters (the whole string
when shorter). -/
def sliceLastFour (s : String) : String :=
  String.mk (s.toList.drop (s.toList.length - 4))

/-- `PermissionPromptTool.generateRequestId` (lines 321-337): up to
`maxAttempts = 100` random draws, returning the first whose 4-hex encoding
is not a currently pending id; on exhaustion, fall back to
`Date.now().toString(16).slice(-4)` — without any uniqueness check.
`draws` supplies the successive values of
`Math.floor(Math.random() * 0x10000)` and `nowMs` the value of
`Date.now()`. -/
def generateRequestId (pendingIds : List String) (draws : List Nat)
    (nowMs : Nat) : String :=
  match (draws.take 100).find? (fun d => !(pendingIds.contains (hex4 d))) with
  | some d => hex4 d
  | none => sliceLastFour (String.mk (natToHexChars nowMs))

/-- C5 counterexample: with `a1b2` pending, one hundred draws of `0xa1b2`
exhaust the retry budget, and at `Date.now() = 0x1a1b2` the fallback
timestamp slice returns `a1b2` — an id equal to a still-pending one. -/
theorem generateRequestId_fallback_collision :
    generateRequestId ["a1b2"] (List.replicate 100 41394) 106930 = "a1b2" ∧
      "a1b2" ∈ ["a1b2"] := by
  refine ⟨?_, by decide⟩
  rfl

/-- C5 amended: whenever the bounded retry loop itself finds an id (some
draw among the first hundred is not pending), the allocator's result is
not equal to any still-pending id; only the exhaustion fallback path can
collide. -/
theorem generateRequestId_retry_fresh (pendingIds : List String)
    (draws : List Nat) (nowMs : Nat)
    (h : ∃ d ∈ draws.take 100, hex4 d ∉ pendingIds) :
    generateRequestId pendingIds draws nowMs ∉ pendingIds := by
  unfold generateRequestId
  cases hf : (draws.take 100).find? (fun d => !(pendingIds.contains (hex4 d))) with
  | none =>
      exfalso
      obtain ⟨d, hd, hnotin⟩ := h
      have hall := List.find?_eq_none.mp hf d hd
      simp only [Bool.not_eq_true', Bool.not_eq_false] at hall
      exact hnotin (by simpa using hall)
  | some d =>
      have hp := List.find?_some hf
      simp only [Bool.not_eq_true'] at hp
      simpa using hp

/-- Witness for C5's amended theorem: with `a1b2` pending, the first draw
`0` encodes to `0000`, which is fresh, and the allocator returns a
non-pending id. -/
theorem generateRequestId_retry_fresh_witness :
    (∃ d ∈ [0].take 100, hex4 d ∉ ["a1b2"]) ∧
      generateRequestId ["a1b2"] [0] 0 ∉ ["a1b2"] := by
  refine ⟨⟨0, by decide, by decide⟩, ?_⟩
  exact generateRequestId_retry_fresh ["a1b2"] [0] 0 ⟨0, by decide, by decide⟩

/-! ## C3: a no-id reply resolves the oldest pending request -/

theorem firstMinByCreatedAt_isSome (l : List PendingPermission)
    (h : l ≠ []) : (firstMinByCreatedAt l).isSome := by
  cases l with
  | nil => exact absurd rfl h
  | cons hd tl =>
      unfold firstMinByCreatedAt
      cases firstMinByCreatedAt tl with
      | none => rfl
      | some q => by_cases hb : q.createdAt < hd.createdAt <;> simp [hb]

theorem firstMinByCreatedAt_mem (l : List PendingPermission)
    (p : PendingPermission) (h : firstMinByCreatedAt l = some p) : p ∈ l := by
  induction l generalizing p with
  | nil => simp [firstMinByCreatedAt] at h
  | cons hd tl ih =>
      unfold firstMinByCreatedAt at h
      cases hrec : firstMinByCreatedAt tl with
      | none =>
          rw [hrec] at h
          dsimp only at h
          simp at h
          simp [h]
      | some q =>
          rw [hrec] at h
          dsimp only at h
          by_cases hlt : q.createdAt < hd.createdAt
          · rw [if_pos hlt] at h
            have := ih q hrec
            simp at h
            subst h
            exact List.mem_cons_of_mem _ this
          · rw [if_neg hlt] at h
            simp at h
            simp [h]

theorem firstMinByCreatedAt_le (l : List PendingPermission)
    (p : PendingPermission) (h : firstMinByCreatedAt l = some p) :
    ∀ q ∈ l, p.createdAt ≤ q.createdAt := by
  induction l generalizing p with
  | nil => simp [firstMinByCreatedAt] at h
  | cons hd tl ih =>
      intro q hq
      unfold firstMinByCreatedAt at h
      cases hrec : firstMinByCreatedAt tl with
      | none =>
          rw [hrec] at h
          dsimp only at h
          simp at h
          subst h
          cases List.mem_cons.mp hq with
          | inl hq1 => exact hq1 ▸ le_refl _
          | inr hq2 =>
              exfalso
              have hne : tl ≠ [] := by
                intro habs
                rw [habs] at hq2
                simp at hq2
              have := firstMinByCreatedAt_isSome tl hne
              rw [hrec] at this
              simp at this
      | some m =>
          rw [hrec] at h
          dsimp only at h
          by_cases hlt : m.createdAt < hd.createdAt
          · rw [if_pos hlt] at h
            simp at h
            subst h
            cases List.mem_cons.mp hq with
            | inl hq1 => exact hq1 ▸ le_of_lt hlt
            | inr hq2 => exact ih m hrec q hq2
          · rw [if_neg hlt] at h
            simp at h
            subst h
            cases List.mem_cons.mp hq with
            | inl hq1 => exact hq1 ▸ le_refl _
            | inr hq2 =>
                have := ih m hrec q hq2
                omega

/-- C3: for an agent with pending permission requests, a reply that parses
to an affirmative or negative token with no request id resolves exactly a
pending request of that agent with the earliest `createdAt` (the
first-inserted such request), removes exactly that request from the
pending set (an entry survives iff its id differs), and appends exactly
its resolution. -/
theorem noId_reply_resolves_oldest (s : PermState) (agentId msg : String)
    (b : Bool) (hparse : parseReply (normalizeReply msg) = some (none, b))
    (hne : getPendingFor s agentId ≠ []) :
    ∃ r, r ∈ getPendingFor s agentId ∧
      (∀ q ∈ getPendingFor s agentId, r.createdAt ≤ q.createdAt) ∧
      handleUserResponse s agentId msg = (true, resolveAndRemove s r b) ∧
      (∀ q ∈ s.pending, (q ∈ (resolveAndRemove s r b).pending ↔ q.id ≠ r.id)) ∧
      (resolveAndRemove s r b).resolutions =
        s.resolutions ++ [⟨r.serial, b, none⟩] := by
  obtain ⟨r, hr⟩ := Option.isSome_iff_exists.mp
    (firstMinByCreatedAt_isSome _ hne)
  refine ⟨r, firstMinByCreatedAt_mem _ r hr, firstMinByCreatedAt_le _ r hr,
    ?_, ?_, rfl⟩
  · unfold handleUserResponse
    rw [hparse]
    unfold findOldestPending
    rw [hr]
  · intro q hq
    unfold resolveAndRemove pendingDelete
    simp [List.mem_filter, hq]

/-- Witness for C3: two requests pending for `agent1`, the younger-id one
created earlier; the bare reply `yes` resolves the request created at time
3 (serial 1) and leaves only the one created at time 5. -/
theorem noId_reply_resolves_oldest_witness :
    parseReply (normalizeReply " Yes ") = some (none, true) ∧
      getPendingFor
          ⟨[⟨"c3d4", "agent1", "Bash", 5, 0⟩, ⟨"e5f6", "agent1", "Edit", 3, 1⟩],
            [(0, "c3d4", 105), (1, "e5f6", 103)], [], 10, 2⟩ "agent1" ≠ [] ∧
      (∃ r, r ∈ getPendingFor
          ⟨[⟨"c3d4", "agent1", "Bash", 5, 0⟩, ⟨"e5f6", "agent1", "Edit", 3, 1⟩],
            [(0, "c3d4", 105), (1, "e5f6", 103)], [], 10, 2⟩ "agent1" ∧
        (∀ q ∈ getPendingFor
            ⟨[⟨"c3d4", "agent1", "Bash", 5, 0⟩, ⟨"e5f6", "agent1", "Edit", 3, 1⟩],
              [(0, "c3d4", 105), (1, "e5f6", 103)], [], 10, 2⟩ "agent1",
          r.createdAt ≤ q.createdAt) ∧
        handleUserResponse
            ⟨[⟨"c3d4", "agent1", "Bash", 5, 0⟩, ⟨"e5f6", "agent1", "Edit", 3, 1⟩],
              [(0, "c3d4", 105), (1, "e5f6", 103)], [], 10, 2⟩ "agent1" " Yes "
          = (true, resolveAndRemove
              ⟨[⟨"c3d4", "agent1", "Bash", 5, 0⟩, ⟨"e5f6", "agent1", "Edit", 3, 1⟩],
                [(0, "c3d4", 105), (1, "e5f6", 103)], [], 10, 2⟩ r true) ∧
        (∀ q ∈ (⟨[⟨"c3d4", "agent1", "Bash", 5, 0⟩, ⟨"e5f6", "agent1", "Edit", 3, 1⟩],
              [(0, "c3d4", 105), (1, "e5f6", 103)], [], 10, 2⟩ : PermState).pending,
          (q ∈ (resolveAndRemove
              ⟨[⟨"c3d4", "agent1", "Bash", 5, 0⟩, ⟨"e5f6", "agent1", "Edit", 3, 1⟩],
                [(0, "c3d4", 105), (1, "e5f6", 103)], [], 10, 2⟩ r true).pending ↔
            q.id ≠ r.id)) ∧
        (resolveAndRemove
            ⟨[⟨"c3d4", "agent1", "Bash", 5, 0⟩, ⟨"e5f6", "agent1", "Edit", 3, 1⟩],
              [(0, "c3d4", 105), (1, "e5f6", 103)], [], 10, 2⟩ r true).resolutions
          = [] ++ [⟨r.serial, true, none⟩]) := by
  refine ⟨by decide, by decide, ?_⟩
  exact noId_reply_resolves_oldest _ "agent1" " Yes " true (by decide) (by decide)

/-! ## C6: replies naming an unknown or mismatched id -/

/-- The reserved per-agent commands intercepted by
`AgentXMPPHandler.handleIncomingMessage` (`src/xmpp/agent-bot.ts` lines
142-155) before anything reaches the subprocess. -/
def reservedCommands : List String := ["quit", "exit", "status", "help", "?"]

/-- Modelled from the spec: the per-agent incoming-message dispatch that
offers a message to the permission engine before forwarding it to the
subprocess.  The reserved-command check is `handleIncomingMessage` of the
snapshot's `src/xmpp/agent-bot.ts` (lines 138-163), but the snapshot's
revision of that file predates the entry point's wiring — `src/index.ts`
passes a `permissionTool` into the `AgentXMPPHandler` config, and the
handler revision that consults it is missing from the snapshot.  Per the
spec (§4.2: "If no match, the reply is still consumed as a permission
reply signal, so it is not echoed to the subprocess"), a non-command
message is first given to `handleUserResponse` and forwarded to
`agentProcess.send` only when that returns `false`.  The result is the new
engine state and the message forwarded to the subprocess, if any. -/
def handleIncomingMessage (s : PermState) (agentId body : String) :
    PermState × Option String :=
  let trimmed := String.mk (trimChars body.toList)
  let lowerCased := lowerStr trimmed
  if reservedCommands.contains lowerCased then (s, none)
  else
    let hr := handleUserResponse s agentId body
    if hr.1 then (hr.2, none) else (hr.2, some trimmed)

/-- C6: a reply that parses with an explicit request id matching no pending
request of that agent is consumed as a permission response
(`handleUserResponse` returns `true`), changes no engine state, and is
never forwarded to the subprocess as a task message. -/
theorem mismatched_id_reply_consumed (s : PermState) (agentId body : String)
    (rid : String) (b : Bool)
    (hparse : parseReply (normalizeReply body) = some (some rid, b))
    (hnomatch : ∀ p ∈ s.pending, p.id = rid → p.agentId ≠ agentId) :
    handleUserResponse s agentId body = (true, s) ∧
      handleIncomingMessage s agentId body = (s, none) := by
  have hmain : handleUserResponse s agentId body = (true, s) := by
    unfold handleUserResponse
    rw [hparse]
    dsimp only
    cases hget : pendingGet s.pending rid with
    | none => rfl
    | some p =>
        have hmem : p ∈ s.pending := List.mem_of_find?_eq_some hget
        have hid : p.id = rid := by
          have := List.find?_some hget
          simpa using this
        have hne : p.agentId ≠ agentId := hnomatch p hmem hid
        dsimp only
        rw [if_pos (by simpa using hne)]
  refine ⟨hmain, ?_⟩
  unfold handleIncomingMessage
  rw [if_neg ?hres]
  case hres =>
    intro habs
    have habs' : normalizeReply body ∈ reservedCommands := by
      have heq : lowerStr (String.mk (trimChars body.toList))
          = normalizeReply body := rfl
      rw [← heq]
      simpa using habs
    simp only [reservedCommands, List.mem_cons, List.not_mem_nil,
      or_false] at habs'
    rcases habs' with h | h | h | h | h
    · rw [h, show parseReply "quit" = none from rfl] at hparse
      exact Option.noConfusion hparse
    · rw [h, show parseReply "exit" = none from rfl] at hparse
      exact Option.noConfusion hparse
    · rw [h, show parseReply "status" = none from rfl] at hparse
      exact Option.noConfusion hparse
    · rw [h, show parseReply "help" = none from rfl] at hparse
      exact Option.noConfusion hparse
    · rw [h, show parseReply "?" = none from rfl] at hparse
      exact Option.noConfusion hparse
  rw [hmain]
  rfl

/-- Witness for C6, end-to-end scenario C: only `c3d4` is pending for
`agent1`; the reply `a1b2 yes` is consumed, the state is unchanged, and
nothing is forwarded to the subprocess. -/
theorem mismatched_id_reply_consumed_witness :
    parseReply (normalizeReply "a1b2 yes") = some (some "a1b2", true) ∧
      (∀ p ∈ (⟨[⟨"c3d4", "agent1", "Bash", 5, 0⟩], [(0, "c3d4", 105)], [], 10, 1⟩ :
          PermState).pending, p.id = "a1b2" → p.agentId ≠ "agent1") ∧
      handleUserResponse
          ⟨[⟨"c3d4", "agent1", "Bash", 5, 0⟩], [(0, "c3d4", 105)], [], 10, 1⟩
          "agent1" "a1b2 yes"
        = (true, ⟨[⟨"c3d4", "agent1", "Bash", 5, 0⟩], [(0, "c3d4", 105)], [], 10, 1⟩) ∧
      handleIncomingMessage
          ⟨[⟨"c3d4", "agent1", "Bash", 5, 0⟩], [(0, "c3d4", 105)], [], 10, 1⟩
          "agent1" "a1b2 yes"
        = (⟨[⟨"c3d4", "agent1", "Bash", 5, 0⟩], [(0, "c3d4", 105)], [], 10, 1⟩, none) := by
  refine ⟨by decide, by decide, ?_⟩
  exact mismatched_id_reply_consumed
    ⟨[⟨"c3d4", "agent1", "Bash", 5, 0⟩], [(0, "c3d4", 105)], [], 10, 1⟩
    "agent1" "a1b2 yes" "a1b2" true (by decide) (by decide)

/-! ## C4: timeouts resolve exactly once — well-formedness machinery -/

/-- Well-formedness of an engine state, as maintained by the tool: `Map`
keys are unique; ghost serials of pending entries, armed timers and logged
resolutions were all allocated below the counter; timer serials are
unique. -/
structure PermWF (s : PermState) : Prop where
  keysNodup : (s.pending.map (fun p => p.id)).Nodup
  pendingSerialLt : ∀ p ∈ s.pending, p.serial < s.nextSerial
  timerSerialLt : ∀ t ∈ s.timers, t.1 < s.nextSerial
  timerSerialsNodup : (s.timers.map (fun t => t.1)).Nodup
  resSerialLt : ∀ r ∈ s.resolutions, r.serial < s.nextSerial

theorem filter_serial_append (rs : List Resolution) (r : Resolution)
    (ser : Nat) :
    ((rs ++ [r]).filter (fun x => x.serial == ser)).length
      = (rs.filter (fun x => x.serial == ser)).length
        + (if r.serial = ser then 1 else 0) := by
  rw [List.filter_append, List.length_append]
  by_cases h : r.serial = ser <;> simp [h]

theorem resCount_eq_zero_of_lt (s : PermState) (n : Nat)
    (h : ∀ r ∈ s.resolutions, r.serial < n) : resCount s n = 0 := by
  unfold resCount
  rw [List.length_eq_zero, List.filter_eq_nil]
  intro r hr
  have := h r hr
  simp only [beq_iff_eq]
  omega

theorem mem_pendingSet_of_ne (ps : List PendingPermission)
    (p x : PendingPermission) (hx : x ∈ ps) (hne : x.id ≠ p.id) :
    x ∈ pendingSet ps p := by
  unfold pendingSet
  split
  · exact List.mem_map.mpr ⟨x, hx, by simp [hne]⟩
  · exact List.mem_append_left _ hx

theorem mem_of_mem_pendingSet (ps : List PendingPermission)
    (p q : PendingPermission) (hq : q ∈ pendingSet ps p) :
    q = p ∨ q ∈ ps := by
  unfold pendingSet at hq
  split at hq
  · obtain ⟨a, ha, hqa⟩ := List.mem_map.mp hq
    by_cases hc : (a.id == p.id) = true
    · rw [if_pos hc] at hqa
      exact Or.inl hqa.symm
    · rw [if_neg hc] at hqa
      exact Or.inr (hqa ▸ ha)
  · cases List.mem_append.mp hq with
    | inl h => exact Or.inr h
    | inr h => exact Or.inl (List.mem_singleton.mp h)

theorem pendingSet_keysNodup (ps : List PendingPermission)
    (p : PendingPermission) (h : (ps.map (fun q => q.id)).Nodup) :
    ((pendingSet ps p).map (fun q => q.id)).Nodup := by
  unfold pendingSet
  split
  · next hany =>
      have hmm : (ps.map (fun q => if q.id == p.id then p else q)).map
          (fun q => q.id) = ps.map (fun q => q.id) := by
        rw [List.map_map]
        apply List.map_congr_left
        intro a _
        by_cases hc : (a.id == p.id) = true
        · simp only [Function.comp_apply, hc, if_pos]
          exact (eq_of_beq hc).symm
        · simp [Function.comp, hc]
      rw [hmm]
      exact h
  · next hany =>
      rw [List.map_append]
      refine List.nodup_append.mpr ⟨h, List.nodup_singleton _, ?_⟩
      intro x hx hx1
      simp only [List.map_cons, List.map_nil, List.mem_singleton] at hx1
      obtain ⟨a, ha, hax⟩ := List.mem_map.mp hx
      have : ¬ (ps.any (fun q => q.id == p.id)) = true := hany
      rw [List.any_eq_true] at this
      push_neg at this
      have := this a ha
      rw [hax, hx1] at this
      simp at this

theorem nodup_map_of_filter {α β : Type} (l : List α) (f : α → Bool)
    (g : α → β) (h : (l.map g).Nodup) : ((l.filter f).map g).Nodup :=
  ((l.filter_sublist).map g).nodup h

theorem permWF_requestPermission (T : Nat) (reg : List String)
    (s : PermState) (a act rid : String) (ok : Bool) (h : PermWF s) :
    PermWF (requestPermission T reg s a act rid ok) := by
  unfold requestPermission
  split
  · exact
      { keysNodup := h.keysNodup
        pendingSerialLt := fun p hp => Nat.lt_succ_of_lt (h.pendingSerialLt p hp)
        timerSerialLt := fun t ht => Nat.lt_succ_of_lt (h.timerSerialLt t ht)
        timerSerialsNodup := h.timerSerialsNodup
        resSerialLt := by
          intro r hr
          rcases List.mem_append.mp hr with h1 | h1
          · exact Nat.lt_succ_of_lt (h.resSerialLt r h1)
          · rw [List.mem_singleton.mp h1]
            exact Nat.lt_succ_self _ }
  · split
    · exact
        { keysNodup := h.keysNodup
          pendingSerialLt := fun p hp =>
            Nat.lt_succ_of_lt (h.pendingSerialLt p hp)
          timerSerialLt := fun t ht => Nat.lt_succ_of_lt (h.timerSerialLt t ht)
          timerSerialsNodup := h.timerSerialsNodup
          resSerialLt := by
            intro r hr
            rcases List.mem_append.mp hr with h1 | h1
            · exact Nat.lt_succ_of_lt (h.resSerialLt r h1)
            · rw [List.mem_singleton.mp h1]
              exact Nat.lt_succ_self _ }
    · exact
        { keysNodup := pendingSet_keysNodup _ _ h.keysNodup
          pendingSerialLt := by
            intro p hp
            rcases mem_of_mem_pendingSet _ _ _ hp with h1 | h1
            · rw [h1]
              exact Nat.lt_succ_self _
            · exact Nat.lt_succ_of_lt (h.pendingSerialLt p h1)
          timerSerialLt := by
            intro t ht
            rcases List.mem_append.mp ht with h1 | h1
            · exact Nat.lt_succ_of_lt (h.timerSerialLt t h1)
            · rw [List.mem_singleton.mp h1]
              exact Nat.lt_succ_self _
          timerSerialsNodup := by
            rw [List.map_append]
            refine List.nodup_append.mpr
              ⟨h.timerSerialsNodup, List.nodup_singleton _, ?_⟩
            intro x hx hx1
            simp only [List.map_cons, List.map_nil,
              List.mem_singleton] at hx1
            obtain ⟨t, ht, htx⟩ := List.mem_map.mp hx
            have := h.timerSerialLt t ht
            rw [htx, hx1] at this
            omega
          resSerialLt := fun r hr => Nat.lt_succ_of_lt (h.resSerialLt r hr) }

theorem permWF_resolveAndRemove (s : PermState) (p : PendingPermission)
    (appr : Bool) (hser : p.serial < s.nextSerial) (h : PermWF s) :
    PermWF (resolveAndRemove s p appr) :=
  { keysNodup := nodup_map_of_filter _ _ _ h.keysNodup
    pendingSerialLt := fun q hq =>
      h.pendingSerialLt q (List.mem_of_mem_filter hq)
    timerSerialLt := fun t ht => h.timerSerialLt t (List.mem_of_mem_filter ht)
    timerSerialsNodup := nodup_map_of_filter _ _ _ h.timerSerialsNodup
    resSerialLt := by
      intro r hr
      rcases List.mem_append.mp hr with h1 | h1
      · exact h.resSerialLt r h1
      · rw [List.mem_singleton.mp h1]
        exact hser }

theorem permWF_cancelOne (s : PermState) (p : PendingPermission)
    (hser : p.serial < s.nextSerial) (h : PermWF s) :
    PermWF (cancelOne s p) :=
  { keysNodup := nodup_map_of_filter _ _ _ h.keysNodup
    pendingSerialLt := fun q hq =>
      h.pendingSerialLt q (List.mem_of_mem_filter hq)
    timerSerialLt := fun t ht => h.timerSerialLt t (List.mem_of_mem_filter ht)
    timerSerialsNodup := nodup_map_of_filter _ _ _ h.timerSerialsNodup
    resSerialLt := by
      intro r hr
      rcases List.mem_append.mp hr with h1 | h1
      · exact h.resSerialLt r h1
      · rw [List.mem_singleton.mp h1]
        exact hser }

theorem cancelOne_nextSerial (s : PermState) (p : PendingPermission) :
    (cancelOne s p).nextSerial = s.nextSerial := rfl

theorem permWF_foldl_cancelOne (L : List PendingPermission) :
    ∀ s : PermState, (∀ q ∈ L, q.serial < s.nextSerial) → PermWF s →
      PermWF (L.foldl cancelOne s) := by
  induction L with
  | nil => intro s _ h; exact h
  | cons q L' ih =>
      intro s hlt h
      rw [List.foldl_cons]
      refine ih (cancelOne s q) ?_ (permWF_cancelOne s q (hlt q (by simp)) h)
      intro q' hq'
      rw [cancelOne_nextSerial]
      exact hlt q' (List.mem_cons_of_mem _ hq')

theorem permWF_cancelAll (s : PermState) (a : String) (h : PermWF s) :
    PermWF (cancelAll s a) := by
  unfold cancelAll
  refine permWF_foldl_cancelOne _ s ?_ h
  intro q hq
  exact h.pendingSerialLt q (List.mem_of_mem_filter hq)

theorem permWF_handleUserResponse (s : PermState) (a m : String)
    (h : PermWF s) : PermWF (handleUserResponse s a m).2 := by
  unfold handleUserResponse
  cases parseReply (normalizeReply m) with
  | none => exact h
  | some pr =>
      obtain ⟨oid, appr⟩ := pr
      cases oid with
      | some rid =>
          dsimp only
          cases hget : pendingGet s.pending rid with
          | none => exact h
          | some p =>
              dsimp only
              split
              · exact h
              · exact permWF_resolveAndRemove s p appr
                  (h.pendingSerialLt p (List.mem_of_find?_eq_some hget)) h
      | none =>
          dsimp only
          cases hold : findOldestPending s a with
          | none => exact h
          | some p =>
              have hp : p ∈ s.pending :=
                List.mem_of_mem_filter (firstMinByCreatedAt_mem _ p hold)
              exact permWF_resolveAndRemove s p appr (h.pendingSerialLt p hp) h

theorem permWF_fireTimeout (s : PermState) (ser : Nat) (h : PermWF s) :
    PermWF (fireTimeout s ser) := by
  unfold fireTimeout
  cases hf : s.timers.find? (fun t => t.1 == ser) with
  | none => exact h
  | some t =>
      obtain ⟨s2, rid, exp⟩ := t
      dsimp only
      split
      · refine
          { keysNodup := nodup_map_of_filter _ _ _ h.keysNodup
            pendingSerialLt := fun q hq =>
              h.pendingSerialLt q (List.mem_of_mem_filter hq)
            timerSerialLt := fun t ht =>
              h.timerSerialLt t (List.mem_of_mem_filter ht)
            timerSerialsNodup := nodup_map_of_filter _ _ _ h.timerSerialsNodup
            resSerialLt := ?_ }
        intro r hr
        rcases List.mem_append.mp hr with h1 | h1
        · exact h.resSerialLt r h1
        · rw [List.mem_singleton.mp h1]
          show ser < s.nextSerial
          have hmem := List.mem_of_find?_eq_some hf
          have hpred := List.find?_some hf
          simp only [beq_iff_eq] at hpred
          have := h.timerSerialLt _ hmem
          dsimp only at hpred this
          omega
      · exact h

theorem permWF_step (T : Nat) (s : PermState) (e : PermEvent)
    (h : PermWF s) : PermWF (permStep T s e) := by
  cases e with
  | request reg a act rid ok => exact permWF_requestPermission T reg s a act rid ok h
  | reply a m => exact permWF_handleUserResponse s a m h
  | cancel a => exact permWF_cancelAll s a h
  | fire ser => exact permWF_fireTimeout s ser h
  | advance dt =>
      exact
        { keysNodup := h.keysNodup
          pendingSerialLt := h.pendingSerialLt
          timerSerialLt := h.timerSerialLt
          timerSerialsNodup := h.timerSerialsNodup
          resSerialLt := h.resSerialLt }

theorem resCount_resolveAndRemove (s : PermState) (p : PendingPermission)
    (appr : Bool) (ser : Nat) :
    resCount (resolveAndRemove s p appr) ser
      = resCount s ser + (if p.serial = ser then 1 else 0) := by
  unfold resCount resolveAndRemove
  dsimp only
  exact filter_serial_append s.resolutions ⟨p.serial, appr, none⟩ ser

theorem resCount_cancelOne (s : PermState) (p : PendingPermission)
    (ser : Nat) :
    resCount (cancelOne s p) ser
      = resCount s ser + (if p.serial = ser then 1 else 0) := by
  unfold resCount cancelOne
  dsimp only
  exact filter_serial_append s.resolutions ⟨p.serial, false, some "cancelled"⟩ ser

theorem resCount_foldl_cancelOne (L : List PendingPermission) :
    ∀ (s : PermState) (ser : Nat),
      resCount (L.foldl cancelOne s) ser
        = resCount s ser + (L.filter (fun q => q.serial == ser)).length := by
  induction L with
  | nil => intro s ser; simp
  | cons q L' ih =>
      intro s ser
      rw [List.foldl_cons, ih, resCount_cancelOne]
      by_cases h : q.serial = ser <;> simp [List.filter_cons, h] <;> omega

theorem resCount_handleUserResponse (s : PermState) (a m : String)
    (ser : Nat) :
    resCount (handleUserResponse s a m).2 ser = resCount s ser ∨
      ∃ p ∈ s.pending,
        (handleUserResponse s a m).2 = resolveAndRemove s p
          ((parseReply (normalizeReply m)).map Prod.snd |>.getD false) := by
  unfold handleUserResponse
  cases parseReply (normalizeReply m) with
  | none => exact Or.inl rfl
  | some pr =>
      obtain ⟨oid, appr⟩ := pr
      cases oid with
      | some rid =>
          dsimp only
          cases hget : pendingGet s.pending rid with
          | none => exact Or.inl rfl
          | some p =>
              dsimp only
              split
              · exact Or.inl rfl
              · exact Or.inr ⟨p, List.mem_of_find?_eq_some hget, rfl⟩
      | none =>
          dsimp only
          cases hold : findOldestPending s a with
          | none => exact Or.inl rfl
          | some p =>
              exact Or.inr
                ⟨p, List.mem_of_mem_filter (firstMinByCreatedAt_mem _ p hold),
                  rfl⟩

theorem resCount_le_step (T : Nat) (s : PermState) (e : PermEvent)
    (ser : Nat) : resCount s ser ≤ resCount (permStep T s e) ser := by
  cases e with
  | request reg a act rid ok =>
      show resCount s ser ≤ resCount (requestPermission T reg s a act rid ok) ser
      unfold requestPermission resCount
      split
      · dsimp only
        rw [filter_serial_append]
        omega
      · split
        · dsimp only
          rw [filter_serial_append]
          omega
        · dsimp only
          exact le_refl _
  | reply a m =>
      rcases resCount_handleUserResponse s a m ser with h | ⟨p, _, h⟩
      · exact le_of_eq h.symm
      · show resCount s ser ≤ resCount (handleUserResponse s a m).2 ser
        rw [h, resCount_resolveAndRemove]
        omega
  | cancel a =>
      show resCount s ser ≤ resCount (cancelAll s a) ser
      unfold cancelAll
      rw [resCount_foldl_cancelOne]
      omega
  | fire ser2 =>
      show resCount s ser ≤ resCount (fireTimeout s ser2) ser
      unfold fireTimeout
      cases s.timers.find? (fun t => t.1 == ser2) with
      | none => exact le_refl _
      | some t =>
          obtain ⟨s2, rid, exp⟩ := t
          dsimp only
          split
          · unfold resCount
            dsimp only
            rw [filter_serial_append]
            omega
          · exact le_refl _
  | advance dt => exact le_refl _

theorem resCount_le_run (T : Nat) (tr : List PermEvent) :
    ∀ (s : PermState) (ser : Nat),
      resCount s ser ≤ resCount (permRun T s tr) ser := by
  induction tr with
  | nil => intro s ser; exact le_refl _
  | cons e tr' ih =>
      intro s ser
      exact le_trans (resCount_le_step T s e ser) (ih (permStep T s e) ser)

/-- Whether an event is a `requestPermission` call reusing the request id
`rid` (the only way a second pending entry with that key could arise). -/
def usesRid (rid : String) : PermEvent → Bool
  | .request _ _ _ rid2 _ => rid2 == rid
  | _ => false

/-- `handleUserResponse` either leaves the state unchanged or resolves and
removes some pending entry. -/
theorem handleUserResponse_cases (s : PermState) (a m : String) :
    (handleUserResponse s a m).2 = s ∨
      ∃ p appr, p ∈ s.pending ∧
        (handleUserResponse s a m).2 = resolveAndRemove s p appr := by
  unfold handleUserResponse
  cases parseReply (normalizeReply m) with
  | none => exact Or.inl rfl
  | some pr =>
      obtain ⟨oid, appr⟩ := pr
      cases oid with
      | some rid =>
          dsimp only
          cases hget : pendingGet s.pending rid with
          | none => exact Or.inl rfl
          | some p =>
              dsimp only
              split
              · exact Or.inl rfl
              · exact Or.inr ⟨p, appr, List.mem_of_find?_eq_some hget, rfl⟩
      | none =>
          dsimp only
          cases hold : findOldestPending s a with
          | none => exact Or.inl rfl
          | some p =>
              exact Or.inr
                ⟨p, appr,
                  List.mem_of_mem_filter (firstMinByCreatedAt_mem _ p hold),
                  rfl⟩

/-- The invariant holding while a request (entry id `rid`, owner `agentId`,
ghost serial `ser`, timer expiry `expiry`) is pending and unresolved. -/
structure QuietInv (rid agentId : String) (ser expiry : Nat)
    (s : PermState) : Prop where
  entry : ∃ p ∈ s.pending, p.id = rid ∧ p.agentId = agentId ∧ p.serial = ser
  timer : (ser, rid, expiry) ∈ s.timers
  noRes : resCount s ser = 0
  ridTimers : ∀ t ∈ s.timers, t.2.1 = rid → t.1 = ser
  serPending : ∀ q ∈ s.pending, q.serial = ser → q.id = rid
  wf : PermWF s

theorem resCount_state_append (s s' : PermState) (r : Resolution)
    (ser : Nat) (hres : s'.resolutions = s.resolutions ++ [r])
    (hne : r.serial ≠ ser) (h : resCount s ser = 0) :
    resCount s' ser = 0 := by
  unfold resCount at *
  rw [hres, filter_serial_append, if_neg hne]
  omega

/-- Resolving and removing a pending entry other than the tracked one
(by `resolveAndRemove` or `cancelOne`) preserves the invariant. -/
theorem quietInv_remove (rid agentId : String) (ser expiry : Nat)
    (s : PermState) (p : PendingPermission) (r : Resolution)
    (hInv : QuietInv rid agentId ser expiry s)
    (hserne : p.serial ≠ ser) (hpid : p.id ≠ rid)
    (hlt : p.serial < s.nextSerial) (hres : r.serial = p.serial) :
    QuietInv rid agentId ser expiry
      { s with
        timers := s.timers.filter (fun t => t.1 != p.serial)
        pending := pendingDelete s.pending p.id
        resolutions := s.resolutions ++ [r] } := by
  obtain ⟨p0, hp0, hid0, hag0, hser0⟩ := hInv.entry
  refine
    { entry := ?_
      timer := ?_
      noRes := ?_
      ridTimers := ?_
      serPending := ?_
      wf := ?_ }
  · refine ⟨p0, ?_, hid0, hag0, hser0⟩
    unfold pendingDelete
    refine List.mem_filter.mpr ⟨hp0, ?_⟩
    simp only [bne_iff_ne, ne_eq, hid0]
    exact fun h => hpid h.symm
  · refine List.mem_filter.mpr ⟨hInv.timer, ?_⟩
    simp only [bne_iff_ne, ne_eq]
    exact fun h => hserne h.symm
  · exact resCount_state_append s _ r ser rfl (by rw [hres]; exact hserne)
      hInv.noRes
  · intro t ht h1
    exact hInv.ridTimers t (List.mem_of_mem_filter ht) h1
  · intro q hq h1
    exact hInv.serPending q (List.mem_of_mem_filter hq) h1
  · exact
      { keysNodup := nodup_map_of_filter _ _ _ hInv.wf.keysNodup
        pendingSerialLt := fun q hq =>
          hInv.wf.pendingSerialLt q (List.mem_of_mem_filter hq)
        timerSerialLt := fun t ht =>
          hInv.wf.timerSerialLt t (List.mem_of_mem_filter ht)
        timerSerialsNodup := nodup_map_of_filter _ _ _ hInv.wf.timerSerialsNodup
        resSerialLt := by
          intro x hx
          rcases List.mem_append.mp hx with h1 | h1
          · exact hInv.wf.resSerialLt x h1
          · rw [List.mem_singleton.mp h1, hres]
            exact hlt }

theorem quietInv_foldl_cancelOne (rid agentId : String) (ser expiry : Nat)
    (L : List PendingPermission) :
    ∀ s : PermState, QuietInv rid agentId ser expiry s →
      (∀ q ∈ L, q.serial ≠ ser ∧ q.id ≠ rid ∧ q.serial < s.nextSerial) →
      QuietInv rid agentId ser expiry (L.foldl cancelOne s) := by
  induction L with
  | nil => intro s h _; exact h
  | cons q L' ih =>
      intro s hInv hfacts
      rw [List.foldl_cons]
      obtain ⟨h1, h2, h3⟩ := hfacts q (by simp)
      refine ih (cancelOne s q) ?_ ?_
      · exact quietInv_remove rid agentId ser expiry s q
          ⟨q.serial, false, some "cancelled"⟩ hInv h1 h2 h3 rfl
      · intro q' hq'
        obtain ⟨g1, g2, g3⟩ := hfacts q' (List.mem_cons_of_mem _ hq')
        exact ⟨g1, g2, g3⟩

theorem quietInv_step (T : Nat) (rid agentId : String) (ser expiry : Nat)
    (s : PermState) (e : PermEvent)
    (hInv : QuietInv rid agentId ser expiry s)
    (hrid : usesRid rid e = false)
    (h0 : resCount (permStep T s e) ser = 0) :
    QuietInv rid agentId ser expiry (permStep T s e) := by
  have hserlt : ser < s.nextSerial := hInv.wf.timerSerialLt _ hInv.timer
  obtain ⟨p0, hp0, hid0, hag0, hser0⟩ := hInv.entry
  cases e with
  | request reg a act rid2 ok =>
      have hrne : rid2 ≠ rid := by
        simpa [usesRid] using hrid
      show QuietInv rid agentId ser expiry
        (requestPermission T reg s a act rid2 ok)
      have hw := permWF_requestPermission T reg s a act rid2 ok hInv.wf
      unfold requestPermission at hw ⊢
      by_cases hc1 : ((!(reg.contains a)) = true)
      · rw [if_pos hc1] at hw ⊢
        exact
          { entry := ⟨p0, hp0, hid0, hag0, hser0⟩
            timer := hInv.timer
            noRes := resCount_state_append s _ _ ser rfl
              (by intro habs; dsimp only at habs; omega) hInv.noRes
            ridTimers := hInv.ridTimers
            serPending := hInv.serPending
            wf := hw }
      · rw [if_neg hc1] at hw ⊢
        by_cases hc2 : ((!ok) = true)
        · rw [if_pos hc2] at hw ⊢
          exact
            { entry := ⟨p0, hp0, hid0, hag0, hser0⟩
              timer := hInv.timer
              noRes := resCount_state_append s _ _ ser rfl
                (by intro habs; dsimp only at habs; omega) hInv.noRes
              ridTimers := hInv.ridTimers
              serPending := hInv.serPending
              wf := hw }
        · rw [if_neg hc2] at hw ⊢
          refine
            { entry := ?_
              timer := List.mem_append_left _ hInv.timer
              noRes := ?_
              ridTimers := ?_
              serPending := ?_
              wf := hw }
          · refine ⟨p0, ?_, hid0, hag0, hser0⟩
            refine mem_pendingSet_of_ne _ _ _ hp0 ?_
            rw [hid0]
            exact fun h => hrne (h.symm)
          · show resCount _ ser = 0
            unfold resCount
            exact hInv.noRes
          · intro t ht h1
            rcases List.mem_append.mp ht with h2 | h2
            · exact hInv.ridTimers t h2 h1
            · exfalso
              rw [List.mem_singleton.mp h2] at h1
              exact hrne h1
          · intro q hq h1
            rcases mem_of_mem_pendingSet _ _ _ hq with h2 | h2
            · exfalso
              rw [h2] at h1
              dsimp only at h1
              omega
            · exact hInv.serPending q h2 h1
  | reply a m =>
      have h0' : resCount (handleUserResponse s a m).2 ser = 0 := h0
      show QuietInv rid agentId ser expiry (handleUserResponse s a m).2
      rcases handleUserResponse_cases s a m with hcase | ⟨p, appr, hp, hcase⟩
      · rw [hcase]
        exact hInv
      · rw [hcase] at h0' ⊢
        rw [resCount_resolveAndRemove] at h0'
        have hpserne : p.serial ≠ ser := by
          intro habs
          rw [if_pos habs] at h0'
          omega
        have hpid : p.id ≠ rid := by
          intro habs
          have heq : p = p0 := List.inj_on_of_nodup_map hInv.wf.keysNodup hp
            hp0 (by rw [habs, hid0])
          rw [heq] at hpserne
          exact hpserne hser0
        exact quietInv_remove rid agentId ser expiry s p
          ⟨p.serial, appr, none⟩ hInv hpserne hpid
          (hInv.wf.pendingSerialLt p hp) rfl
  | cancel a =>
      have h0' : resCount (cancelAll s a) ser = 0 := h0
      show QuietInv rid agentId ser expiry (cancelAll s a)
      unfold cancelAll at h0' ⊢
      rw [resCount_foldl_cancelOne] at h0'
      have hflt :
          ((getPendingFor s a).filter (fun q => q.serial == ser)).length = 0 :=
        by omega
      have hfacts : ∀ q ∈ getPendingFor s a,
          q.serial ≠ ser ∧ q.id ≠ rid ∧ q.serial < s.nextSerial := by
        intro q hq
        have hqmem : q ∈ s.pending := List.mem_of_mem_filter hq
        have hqser : q.serial ≠ ser := by
          intro habs
          rw [List.length_eq_zero, List.filter_eq_nil] at hflt
          exact hflt q hq (by simp [habs])
        refine ⟨hqser, ?_, hInv.wf.pendingSerialLt q hqmem⟩
        intro habs
        have heq : q = p0 := List.inj_on_of_nodup_map hInv.wf.keysNodup hqmem
          hp0 (by rw [habs, hid0])
        rw [heq] at hqser
        exact hqser hser0
      exact quietInv_foldl_cancelOne rid agentId ser expiry _ s hInv hfacts
  | fire ser2 =>
      have h0' : resCount (fireTimeout s ser2) ser = 0 := h0
      show QuietInv rid agentId ser expiry (fireTimeout s ser2)
      unfold fireTimeout at h0' ⊢
      cases hf : s.timers.find? (fun t => t.1 == ser2) with
      | none =>
          exact hInv
      | some t3 =>
          obtain ⟨ser3, rid3, exp3⟩ := t3
          rw [hf] at h0'
          dsimp only at h0' ⊢
          have hmem := List.mem_of_find?_eq_some hf
          have hpred := List.find?_some hf
          simp only [beq_iff_eq] at hpred
          by_cases hnow : ((s.now == exp3) = true)
          · rw [if_pos hnow] at h0' ⊢
            have hser2ne : ser2 ≠ ser := by
              intro habs
              have : resCount
                  { s with
                    timers := s.timers.filter (fun t => t.1 != ser2)
                    pending := pendingDelete s.pending rid3
                    resolutions :=
                      s.resolutions ++ [⟨ser2, false, some "timeout"⟩] } ser
                  = resCount s ser + 1 := by
                unfold resCount
                dsimp only
                rw [filter_serial_append, if_pos habs]
              rw [this] at h0'
              omega
            have hrid3 : rid3 ≠ rid := by
              intro habs
              have := hInv.ridTimers _ hmem (by dsimp only; exact habs)
              dsimp only at this
              rw [hpred] at this
              exact hser2ne this
            refine
              { entry := ?_
                timer := ?_
                noRes := h0'
                ridTimers := ?_
                serPending := ?_
                wf := ?_ }
            · refine ⟨p0, ?_, hid0, hag0, hser0⟩
              unfold pendingDelete
              refine List.mem_filter.mpr ⟨hp0, ?_⟩
              simp only [bne_iff_ne, ne_eq, hid0]
              exact fun h => hrid3 h.symm
            · refine List.mem_filter.mpr ⟨hInv.timer, ?_⟩
              simp only [bne_iff_ne, ne_eq]
              exact fun h => hser2ne h.symm
            · intro t ht h1
              exact hInv.ridTimers t (List.mem_of_mem_filter ht) h1
            · intro q hq h1
              exact hInv.serPending q (List.mem_of_mem_filter hq) h1
            · exact
                { keysNodup := nodup_map_of_filter _ _ _ hInv.wf.keysNodup
                  pendingSerialLt := fun q hq =>
                    hInv.wf.pendingSerialLt q (List.mem_of_mem_filter hq)
                  timerSerialLt := fun t ht =>
                    hInv.wf.timerSerialLt t (List.mem_of_mem_filter ht)
                  timerSerialsNodup :=
                    nodup_map_of_filter _ _ _ hInv.wf.timerSerialsNodup
                  resSerialLt := by
                    intro x hx
                    rcases List.mem_append.mp hx with h1 | h1
                    · exact hInv.wf.resSerialLt x h1
                    · rw [List.mem_singleton.mp h1]
                      show ser2 < s.nextSerial
                      have := hInv.wf.timerSerialLt _ hmem
                      dsimp only at this
                      rw [hpred] at this
                      exact this }
          · rw [if_neg hnow]
            exact hInv
  | advance dt =>
      exact
        { entry := ⟨p0, hp0, hid0, hag0, hser0⟩
          timer := hInv.timer
          noRes := hInv.noRes
          ridTimers := hInv.ridTimers
          serPending := hInv.serPending
          wf := permWF_step T s (.advance dt) hInv.wf }

theorem quietInv_run (T : Nat) (rid agentId : String) (ser expiry : Nat)
    (tr : List PermEvent) :
    ∀ s : PermState, QuietInv rid agentId ser expiry s →
      (∀ e ∈ tr, usesRid rid e = false) →
      resCount (permRun T s tr) ser = 0 →
      QuietInv rid agentId ser expiry (permRun T s tr) := by
  induction tr with
  | nil => intro s h _ _; exact h
  | cons e tr' ih =>
      intro s hInv hquiet h0
      show QuietInv rid agentId ser expiry (permRun T (permStep T s e) tr')
      have hstep0 : resCount (permStep T s e) ser = 0 := by
        have := resCount_le_run T tr' (permStep T s e) ser
        have h0' : resCount (permRun T (permStep T s e) tr') ser = 0 := h0
        omega
      exact ih (permStep T s e)
        (quietInv_step T rid agentId ser expiry s e hInv
          (hquiet e (by simp)) hstep0)
        (fun e' he' => hquiet e' (List.mem_cons_of_mem _ he')) h0

/-- A fresh `requestPermission` call for a known agent, with delivered
prompt and an id fresh among pending keys and timer captures, establishes
the invariant with the timer set to exactly `now + timeoutMs`. -/
theorem quietInv_setup (T : Nat) (reg : List String) (s0 : PermState)
    (agentId act rid : String)
    (hWF : PermWF s0)
    (hreg : (reg.contains agentId) = true)
    (hridP : ∀ p ∈ s0.pending, p.id ≠ rid)
    (hridT : ∀ t ∈ s0.timers, t.2.1 ≠ rid) :
    QuietInv rid agentId s0.nextSerial (s0.now + T)
      (permStep T s0 (.request reg agentId act rid true)) := by
  show QuietInv rid agentId s0.nextSerial (s0.now + T)
    (requestPermission T reg s0 agentId act rid true)
  have hw := permWF_requestPermission T reg s0 agentId act rid true hWF
  unfold requestPermission at hw ⊢
  have hc1 : ¬ ((!(reg.contains agentId)) = true) := by rw [hreg]; decide
  have hc2 : ¬ ((!true) = true) := by decide
  rw [if_neg hc1, if_neg hc2] at hw ⊢
  have hany : ¬ (s0.pending.any (fun q => q.id == rid)) = true := by
    rw [List.any_eq_true]
    push_neg
    intro q hq
    simpa using hridP q hq
  refine
    { entry := ?_
      timer := List.mem_append_right _ (by simp)
      noRes := ?_
      ridTimers := ?_
      serPending := ?_
      wf := hw }
  · refine ⟨⟨rid, agentId, act, s0.now, s0.nextSerial⟩, ?_, rfl, rfl, rfl⟩
    unfold pendingSet
    rw [if_neg hany]
    exact List.mem_append_right _ (by simp)
  · show resCount _ s0.nextSerial = 0
    unfold resCount
    dsimp only
    exact resCount_eq_zero_of_lt s0 s0.nextSerial hWF.resSerialLt
  · intro t ht h1
    rcases List.mem_append.mp ht with h2 | h2
    · exact absurd h1 (hridT t h2)
    · rw [List.mem_singleton.mp h2]
  · intro q hq h1
    have hq' : q ∈ pendingSet s0.pending
        ⟨rid, agentId, act, s0.now, s0.nextSerial⟩ := hq
    rcases mem_of_mem_pendingSet _ _ _ hq' with h2 | h2
    · rw [h2]
    · exfalso
      have := hWF.pendingSerialLt q h2
      omega

theorem find?_timer_self (timers : List (Nat × String × Nat))
    (t : Nat × String × Nat) (hmem : t ∈ timers)
    (hnodup : (timers.map (fun x => x.1)).Nodup) :
    timers.find? (fun x => x.1 == t.1) = some t := by
  cases hf : timers.find? (fun x => x.1 == t.1) with
  | none =>
      exfalso
      have := List.find?_eq_none.mp hf t hmem
      simp at this
  | some t2 =>
      have hmem2 := List.mem_of_find?_eq_some hf
      have hpred := List.find?_some hf
      simp only [beq_iff_eq] at hpred
      have heq : t2 = t := List.inj_on_of_nodup_map hnodup hmem2 hmem hpred
      rw [heq]

theorem resCount_state_append_eq (s s' : PermState) (r : Resolution)
    (ser : Nat) (hres : s'.resolutions = s.resolutions ++ [r])
    (hne : r.serial ≠ ser) : resCount s' ser = resCount s ser := by
  unfold resCount
  rw [hres, filter_serial_append, if_neg hne]
  omega

/-- After the tracked request has been resolved by its timeout: it was
resolved exactly once, it is gone from the pending map, and no timer for
it remains. -/
structure PostInv (ser : Nat) (s : PermState) : Prop where
  count : resCount s ser = 1
  noPending : ∀ q ∈ s.pending, q.serial ≠ ser
  noTimer : ∀ t ∈ s.timers, t.1 ≠ ser
  lt : ser < s.nextSerial

/-- Firing the armed timer at exactly its expiry resolves the tracked
request with a `timeout` denial and removes its pending entry and its
timer. -/
theorem quiet_fire (T : Nat) (rid agentId : String) (ser expiry : Nat)
    (s : PermState) (hInv : QuietInv rid agentId ser expiry s)
    (hnow : s.now = expiry) :
    (⟨ser, false, some "timeout"⟩ : Resolution)
        ∈ (permStep T s (.fire ser)).resolutions ∧
      PostInv ser (permStep T s (.fire ser)) := by
  have hfind : s.timers.find? (fun x => x.1 == ser) = some (ser, rid, expiry) :=
    find?_timer_self s.timers (ser, rid, expiry) hInv.timer
      hInv.wf.timerSerialsNodup
  show (⟨ser, false, some "timeout"⟩ : Resolution)
      ∈ (fireTimeout s ser).resolutions ∧ PostInv ser (fireTimeout s ser)
  unfold fireTimeout
  rw [hfind]
  dsimp only
  rw [if_pos (beq_iff_eq.mpr hnow)]
  refine ⟨List.mem_append_right _ (by simp), ?_, ?_, ?_, ?_⟩
  · show resCount _ ser = 1
    unfold resCount
    dsimp only
    rw [filter_serial_append, if_pos rfl]
    have := hInv.noRes
    unfold resCount at this
    omega
  · intro q hq
    have hq' := List.mem_filter.mp hq
    have hqid : q.id ≠ rid := by
      have := hq'.2
      simpa using this
    intro habs
    exact hqid (hInv.serPending q hq'.1 habs)
  · intro t ht
    have := (List.mem_filter.mp ht).2
    simpa using this
  · exact hInv.wf.timerSerialLt _ hInv.timer

theorem postInv_foldl_cancelOne (ser : Nat) (L : List PendingPermission) :
    ∀ s : PermState, PostInv ser s → (∀ q ∈ L, q.serial ≠ ser) →
      PostInv ser (L.foldl cancelOne s) := by
  induction L with
  | nil => intro s h _; exact h
  | cons q L' ih =>
      intro s hPost hfacts
      rw [List.foldl_cons]
      refine ih (cancelOne s q) ?_
        (fun q' hq' => hfacts q' (List.mem_cons_of_mem _ hq'))
      refine
        { count := ?_
          noPending := fun p hp =>
            hPost.noPending p (List.mem_of_mem_filter hp)
          noTimer := fun t ht => hPost.noTimer t (List.mem_of_mem_filter ht)
          lt := hPost.lt }
      rw [resCount_cancelOne, if_neg (hfacts q (by simp))]
      exact hPost.count

theorem postInv_step (T : Nat) (ser : Nat) (s : PermState) (e : PermEvent)
    (hPost : PostInv ser s) : PostInv ser (permStep T s e) := by
  cases e with
  | request reg a act rid2 ok =>
      show PostInv ser (requestPermission T reg s a act rid2 ok)
      unfold requestPermission
      by_cases hc1 : ((!(reg.contains a)) = true)
      · rw [if_pos hc1]
        exact
          { count := by
              refine resCount_state_append_eq s _ _ ser rfl ?_ |>.trans
                hPost.count
              intro habs
              dsimp only at habs
              have := hPost.lt
              omega
            noPending := hPost.noPending
            noTimer := hPost.noTimer
            lt := Nat.lt_succ_of_lt hPost.lt }
      · rw [if_neg hc1]
        by_cases hc2 : ((!ok) = true)
        · rw [if_pos hc2]
          exact
            { count := by
                refine resCount_state_append_eq s _ _ ser rfl ?_ |>.trans
                  hPost.count
                intro habs
                dsimp only at habs
                have := hPost.lt
                omega
              noPending := hPost.noPending
              noTimer := hPost.noTimer
              lt := Nat.lt_succ_of_lt hPost.lt }
        · rw [if_neg hc2]
          refine
            { count := hPost.count
              noPending := ?_
              noTimer := ?_
              lt := Nat.lt_succ_of_lt hPost.lt }
          · intro q hq
            have hq' : q ∈ pendingSet s.pending
                ⟨rid2, a, act, s.now, s.nextSerial⟩ := hq
            rcases mem_of_mem_pendingSet _ _ _ hq' with h2 | h2
            · rw [h2]
              intro habs
              dsimp only at habs
              have := hPost.lt
              omega
            · exact hPost.noPending q h2
          · intro t ht
            rcases List.mem_append.mp ht with h2 | h2
            · exact hPost.noTimer t h2
            · rw [List.mem_singleton.mp h2]
              intro habs
              dsimp only at habs
              have := hPost.lt
              omega
  | reply a m =>
      show PostInv ser (handleUserResponse s a m).2
      rcases handleUserResponse_cases s a m with hcase | ⟨p, appr, hp, hcase⟩
      · rw [hcase]
        exact hPost
      · rw [hcase]
        refine
          { count := ?_
            noPending := fun q hq =>
              hPost.noPending q (List.mem_of_mem_filter hq)
            noTimer := fun t ht => hPost.noTimer t (List.mem_of_mem_filter ht)
            lt := hPost.lt }
        rw [resCount_resolveAndRemove, if_neg (hPost.noPending p hp)]
        exact hPost.count
  | cancel a =>
      show PostInv ser (cancelAll s a)
      unfold cancelAll
      exact postInv_foldl_cancelOne ser _ s hPost
        (fun q hq => hPost.noPending q (List.mem_of_mem_filter hq))
  | fire ser2 =>
      show PostInv ser (fireTimeout s ser2)
      unfold fireTimeout
      cases hf : s.timers.find? (fun t => t.1 == ser2) with
      | none => exact hPost
      | some t3 =>
          obtain ⟨ser3, rid3, exp3⟩ := t3
          dsimp only
          have hmem := List.mem_of_find?_eq_some hf
          have hpred := List.find?_some hf
          simp only [beq_iff_eq] at hpred
          have hser2ne : ser2 ≠ ser := by
            have := hPost.noTimer _ hmem
            dsimp only at this hpred
            rw [hpred] at this
            exact this
          by_cases hnow : ((s.now == exp3) = true)
          · rw [if_pos hnow]
            exact
              { count := (resCount_state_append_eq s _ _ ser rfl
                  hser2ne).trans hPost.count
                noPending := fun q hq =>
                  hPost.noPending q (List.mem_of_mem_filter hq)
                noTimer := fun t ht =>
                  hPost.noTimer t (List.mem_of_mem_filter ht)
                lt := hPost.lt }
          · rw [if_neg hnow]
            exact hPost
  | advance dt =>
      exact
        { count := hPost.count
          noPending := hPost.noPending
          noTimer := hPost.noTimer
          lt := hPost.lt }

theorem postInv_run (T : Nat) (ser : Nat) (tr : List PermEvent) :
    ∀ s : PermState, PostInv ser s → PostInv ser (permRun T s tr) := by
  induction tr with
  | nil => intro s h; exact h
  | cons e tr' ih =>
      intro s hPost
      exact ih (permStep T s e) (postInv_step T ser s e hPost)

/-- C4: a permission request for a known agent (prompt delivered, fresh
id) arms its timer for exactly `now + timeoutMs`; if no reply, cancel or
other event resolves it (`resCount = 0` over the intervening trace, none
of which reuses its id), then when the timer fires at its expiry the
request is resolved as a denial with reason `timeout`, exactly once — the
resolution count for that request is `1` and stays `1` over every
subsequent trace — and afterwards the pending map no longer holds the
request and its timer is gone. -/
theorem permission_timeout_exactly_once (T : Nat) (s0 s1 s2 s3 : PermState)
    (reg : List String) (agentId act rid : String) (ser : Nat)
    (tr : List PermEvent)
    (hWF : PermWF s0)
    (hreg : (reg.contains agentId) = true)
    (hridP : ∀ p ∈ s0.pending, p.id ≠ rid)
    (hridT : ∀ t ∈ s0.timers, t.2.1 ≠ rid)
    (hser : ser = s0.nextSerial)
    (hs1 : s1 = permStep T s0 (.request reg agentId act rid true))
    (hquiet : ∀ e ∈ tr, usesRid rid e = false)
    (hs2 : s2 = permRun T s1 tr)
    (hnores : resCount s2 ser = 0)
    (hdue : s2.now = s0.now + T)
    (hs3 : s3 = permStep T s2 (.fire ser)) :
    ((ser, rid, s0.now + T) ∈ s1.timers) ∧
      resCount s3 ser = 1 ∧
      ((⟨ser, false, some "timeout"⟩ : Resolution) ∈ s3.resolutions) ∧
      (∀ q ∈ s3.pending, q.serial ≠ ser) ∧
      (∀ t ∈ s3.timers, t.1 ≠ ser) ∧
      (∀ tr2 : List PermEvent, resCount (permRun T s3 tr2) ser = 1) := by
  subst hser hs1 hs2 hs3
  have hInv1 := quietInv_setup T reg s0 agentId act rid hWF hreg hridP hridT
  have hInv2 := quietInv_run T rid agentId s0.nextSerial (s0.now + T) tr _
    hInv1 hquiet hnores
  obtain ⟨hmem3, hpost3⟩ := quiet_fire T rid agentId s0.nextSerial
    (s0.now + T) _ hInv2 hdue
  exact ⟨hInv1.timer, hpost3.count, hmem3, hpost3.noPending, hpost3.noTimer,
    fun tr2 => (postInv_run T s0.nextSerial tr2 _ hpost3).count⟩

/-- Witness for C4 on a concrete run: from the empty engine state with a
5ms timeout, a request for `agent1` with id `ab12` is created, time
advances to the expiry with no reply, the timer fires, and the request is
resolved exactly once with reason `timeout`. -/
theorem permission_timeout_exactly_once_witness :
    ((0, "ab12", 0 + 5)
        ∈ (permStep 5 ⟨[], [], [], 0, 0⟩
            (.request ["agent1"] "agent1" "Bash" "ab12" true)).timers) ∧
      resCount (permStep 5
          (permRun 5 (permStep 5 ⟨[], [], [], 0, 0⟩
              (.request ["agent1"] "agent1" "Bash" "ab12" true))
            [.advance 5])
          (.fire 0)) 0 = 1 ∧
      ((⟨0, false, some "timeout"⟩ : Resolution) ∈
        (permStep 5
            (permRun 5 (permStep 5 ⟨[], [], [], 0, 0⟩
                (.request ["agent1"] "agent1" "Bash" "ab12" true))
              [.advance 5])
            (.fire 0)).resolutions) ∧
      (∀ q ∈ (permStep 5
          (permRun 5 (permStep 5 ⟨[], [], [], 0, 0⟩
              (.request ["agent1"] "agent1" "Bash" "ab12" true))
            [.advance 5])
          (.fire 0)).pending, q.serial ≠ 0) ∧
      (∀ t ∈ (permStep 5
          (permRun 5 (permStep 5 ⟨[], [], [], 0, 0⟩
              (.request ["agent1"] "agent1" "Bash" "ab12" true))
            [.advance 5])
          (.fire 0)).timers, t.1 ≠ 0) ∧
      (∀ tr2 : List PermEvent, resCount (permRun 5 (permStep 5
          (permRun 5 (permStep 5 ⟨[], [], [], 0, 0⟩
              (.request ["agent1"] "agent1" "Bash" "ab12" true))
            [.advance 5])
          (.fire 0)) tr2) 0 = 1) :=
  permission_timeout_exactly_once 5 ⟨[], [], [], 0, 0⟩ _ _ _
    ["agent1"] "agent1" "Bash" "ab12" 0 [.advance 5]
    ⟨by decide, by decide, by decide, by decide, by decide⟩
    (by decide) (by decide) (by decide) (by decide) rfl
    (by decide) rfl (by decide) (by decide) rfl
